import Mathlib

/-!
Verification of the fixed-point `from_str` engine of mvs-org/substrate-fixed
(`src/from_str.rs`).  Machine integers of width `w` are embedded as natural
numbers, with `% 2^w` inserted exactly where the Rust code wraps (shifts and
casts); fallible operations become `Option`/`ParseResult`.  Strings are
embedded as `List Char` (the scanner works byte by byte on ASCII input, so a
character list is an exact model).
-/

namespace SubstrateFixed

/-- The four error kinds of `ParseErrorKind` in `from_str.rs`. -/
inductive ParseErrorKind where
  | InvalidDigit
  | NoDigits
  | TooManyPoints
  | Overflow
deriving DecidableEq, Repr

/-- `Result<T, ParseFixedError>` specialised to the parse routines. -/
inductive ParseResult (α : Type) where
  | ok : α → ParseResult α
  | err : ParseErrorKind → ParseResult α
deriving DecidableEq, Repr

/-- The `Parse` struct of `from_str.rs`: sign flag plus trimmed digit spans. -/
structure ParseSpans where
  neg : Bool
  int : List Char
  frac : List Char
deriving DecidableEq, Repr

/-- Value of an ASCII digit byte, `byte - b'0'` in the source. -/
def dval (c : Char) : Nat := c.toNat - 48

/-- `unchecked_hex_digit`: `(byte & 0x0f) + if byte >= 0x40 { 9 } else { 0 }`. -/
def unchecked_hex_digit (c : Char) : Nat :=
  (c.toNat &&& 0x0f) + (if 0x40 ≤ c.toNat then 9 else 0)

/-- The digit arms of the `match (byte, radix)` in `parse_bounds`. -/
def isRadixDigit (radix : Nat) (c : Char) : Bool :=
  let n := c.toNat
  decide ((radix = 2 ∧ 48 ≤ n ∧ n ≤ 49) ∨
    (radix = 8 ∧ 48 ≤ n ∧ n ≤ 55) ∨
    (radix = 10 ∧ 48 ≤ n ∧ n ≤ 57) ∨
    (radix = 16 ∧ (48 ≤ n ∧ n ≤ 57 ∨ 97 ≤ n ∧ n ≤ 102 ∨ 65 ≤ n ∧ n ≤ 70)))

/-- `u{w}::checked_add`. -/
def checked_add (w a b : Nat) : Option Nat :=
  if a + b < 2 ^ w then some (a + b) else none

/-- `u32::checked_sub` (used on the leading-zero budget counters). -/
def checked_sub (a b : Nat) : Option Nat :=
  if b ≤ a then some (a - b) else none

/-- Fuelled bit-size helper (fuel `w` suffices for values below `2^w`). -/
def sizeAux : Nat → Nat → Nat
  | 0, _ => 0
  | fuel + 1, v => if v = 0 then 0 else sizeAux fuel (v / 2) + 1

/-- `leading_zeros` of a value stored in a `w`-bit word. -/
def leading_zeros (w v : Nat) : Nat := w - sizeAux w v

/-- Loop body of `bin_str_int_to_bin`. -/
def bin_int_go (w : Nat) : List Char → Nat → Nat → Option Nat
  | [], acc, _ => some acc
  | c :: rest, acc, lz =>
    match checked_sub lz 1 with
    | none => none
    | some lz' => bin_int_go w rest ((acc <<< 1) % 2 ^ w + dval c) lz'

/-- `bin_str_int_to_bin` for a `w`-bit working integer. -/
def bin_str_int_to_bin (w : Nat) (s : List Char) : Option Nat :=
  match s with
  | [] => none
  | c :: rest => bin_int_go w rest (dval c) (leading_zeros w (dval c))

/-- Loop body of `oct_str_int_to_bin`. -/
def oct_int_go (w : Nat) : List Char → Nat → Nat → Option Nat
  | [], acc, _ => some acc
  | c :: rest, acc, lz =>
    match checked_sub lz 3 with
    | none => none
    | some lz' => oct_int_go w rest ((acc <<< 3) % 2 ^ w + dval c) lz'

/-- `oct_str_int_to_bin` for a `w`-bit working integer. -/
def oct_str_int_to_bin (w : Nat) (s : List Char) : Option Nat :=
  match s with
  | [] => none
  | c :: rest => oct_int_go w rest (dval c) (leading_zeros w (dval c))

/-- Loop body of `hex_str_int_to_bin`. -/
def hex_int_go (w : Nat) : List Char → Nat → Nat → Option Nat
  | [], acc, _ => some acc
  | c :: rest, acc, lz =>
    match checked_sub lz 4 with
    | none => none
    | some lz' => hex_int_go w rest ((acc <<< 4) % 2 ^ w + unchecked_hex_digit c) lz'

/-- `hex_str_int_to_bin` for a `w`-bit working integer. -/
def hex_str_int_to_bin (w : Nat) (s : List Char) : Option Nat :=
  match s with
  | [] => none
  | c :: rest =>
    hex_int_go w rest (unchecked_hex_digit c) (leading_zeros w (unchecked_hex_digit c))

/-- Loop body of `bin_str_frac_to_bin`. -/
def bin_frac_go (w nbits : Nat) : List Char → Nat → Nat → Option Nat
  | [], acc, rem_bits => some ((acc <<< rem_bits) % 2 ^ w)
  | c :: rest, acc, rem_bits =>
    let val := dval c
    if rem_bits < 1 then
      match checked_add w acc val with
      | none => none
      | some acc' => if w - nbits ≠ 0 ∧ acc' >>> nbits ≠ 0 then none else some acc'
    else bin_frac_go w nbits rest ((acc <<< 1) % 2 ^ w + val) (rem_bits - 1)

/-- `bin_str_frac_to_bin` for a `w`-bit working integer. -/
def bin_str_frac_to_bin (w : Nat) (s : List Char) (nbits : Nat) : Option Nat :=
  bin_frac_go w nbits s 0 nbits

/-- Loop body of `oct_str_frac_to_bin`. -/
def oct_frac_go (w nbits : Nat) : List Char → Nat → Nat → Option Nat
  | [], acc, rem_bits => some ((acc <<< rem_bits) % 2 ^ w)
  | c :: rest, acc, rem_bits =>
    let val := dval c
    if rem_bits < 3 then
      let acc1 := (acc <<< rem_bits) % 2 ^ w + val >>> (3 - rem_bits)
      match checked_add w acc1 ((val >>> (2 - rem_bits)) &&& 1) with
      | none => none
      | some acc' => if w - nbits ≠ 0 ∧ acc' >>> nbits ≠ 0 then none else some acc'
    else oct_frac_go w nbits rest ((acc <<< 3) % 2 ^ w + val) (rem_bits - 3)

/-- `oct_str_frac_to_bin` for a `w`-bit working integer. -/
def oct_str_frac_to_bin (w : Nat) (s : List Char) (nbits : Nat) : Option Nat :=
  oct_frac_go w nbits s 0 nbits

/-- Loop body of `hex_str_frac_to_bin`. -/
def hex_frac_go (w nbits : Nat) : List Char → Nat → Nat → Option Nat
  | [], acc, rem_bits => some ((acc <<< rem_bits) % 2 ^ w)
  | c :: rest, acc, rem_bits =>
    let val := unchecked_hex_digit c
    if rem_bits < 4 then
      let acc1 := (acc <<< rem_bits) % 2 ^ w + val >>> (4 - rem_bits)
      match checked_add w acc1 ((val >>> (3 - rem_bits)) &&& 1) with
      | none => none
      | some acc' => if w - nbits ≠ 0 ∧ acc' >>> nbits ≠ 0 then none else some acc'
    else hex_frac_go w nbits rest ((acc <<< 4) % 2 ^ w + val) (rem_bits - 4)

/-- `hex_str_frac_to_bin` for a `w`-bit working integer. -/
def hex_str_frac_to_bin (w : Nat) (s : List Char) (nbits : Nat) : Option Nat :=
  hex_frac_go w nbits s 0 nbits

/-- Loop body of the standard-library checked decimal parse `str::parse::<uN>`. -/
def dec_int_go (w : Nat) : List Char → Nat → Option Nat
  | [], acc => some acc
  | c :: rest, acc =>
    if acc * 10 + dval c < 2 ^ w then dec_int_go w rest (acc * 10 + dval c) else none

/-- `int.parse::<uN>().ok()`: overflow-checked decimal string to integer. -/
def dec_str_int_to_bin (w : Nat) (s : List Char) : Option Nat :=
  match s with
  | [] => none
  | _ => dec_int_go w s 0

/-- Unchecked decimal value of a digit span (`parse::<DoubleBits>().unwrap()`,
which never overflows at the call sites). -/
def val10 (s : List Char) : Nat := s.foldl (fun a c => a * 10 + dval c) 0

/-- `dec3_to_bin8`: exact scaled rounding of a 3-digit decimal fraction. -/
def dec3_to_bin8 (val nbits : Nat) : Option Nat :=
  let dump_bits := 8 - nbits
  let divisor : Nat := 5 ^ 3 * 2
  let shift := ((val <<< (8 - 3 + 1)) % 2 ^ 16) >>> dump_bits
  let round := shift + divisor / 2
  if divisor ≤ round >>> nbits then none else some (round / divisor % 2 ^ 8)

/-- `dec6_to_bin16`. -/
def dec6_to_bin16 (val nbits : Nat) : Option Nat :=
  let dump_bits := 16 - nbits
  let divisor : Nat := 5 ^ 6 * 2
  let shift := ((val <<< (16 - 6 + 1)) % 2 ^ 32) >>> dump_bits
  let round := shift + divisor / 2
  if divisor ≤ round >>> nbits then none else some (round / divisor % 2 ^ 16)

/-- `dec13_to_bin32`. -/
def dec13_to_bin32 (val nbits : Nat) : Option Nat :=
  let dump_bits := 32 - nbits
  let divisor : Nat := 5 ^ 13 * 2
  let shift := ((val <<< (32 - 13 + 1)) % 2 ^ 64) >>> dump_bits
  let round := shift + divisor / 2
  if divisor ≤ round >>> nbits then none else some (round / divisor % 2 ^ 32)

/-- `dec27_to_bin64`. -/
def dec27_to_bin64 (val nbits : Nat) : Option Nat :=
  let dump_bits := 64 - nbits
  let divisor : Nat := 5 ^ 27 * 2
  let shift := ((val <<< (64 - 27 + 1)) % 2 ^ 128) >>> dump_bits
  let round := shift + divisor / 2
  if divisor ≤ round >>> nbits then none else some (round / divisor % 2 ^ 64)

/-- `mul_hi_lo`: 128×128→256-bit schoolbook multiply, as (high, low) words. -/
def mul_hi_lo (lhs rhs : Nat) : Nat × Nat :=
  let LO : Nat := 2 ^ 64 - 1
  let lhs_hi := lhs >>> 64
  let lhs_lo := lhs &&& LO
  let rhs_hi := rhs >>> 64
  let rhs_lo := rhs &&& LO
  let lhs_lo_rhs_lo := lhs_lo * rhs_lo % 2 ^ 128
  let lhs_hi_rhs_lo := lhs_hi * rhs_lo % 2 ^ 128
  let lhs_lo_rhs_hi := lhs_lo * rhs_hi % 2 ^ 128
  let lhs_hi_rhs_hi := lhs_hi * rhs_hi % 2 ^ 128
  let col01 := lhs_lo_rhs_lo
  let col01_hi := col01 >>> 64
  let col01_lo := col01 &&& LO
  let partial_col12 := lhs_hi_rhs_lo + col01_hi
  let col12 := (partial_col12 + lhs_lo_rhs_hi) % 2 ^ 128
  let carry_col3 := 2 ^ 128 ≤ partial_col12 + lhs_lo_rhs_hi
  let col12_hi := col12 >>> 64
  let col12_lo := col12 &&& LO
  let ans01 := (col12_lo <<< 64) % 2 ^ 128 + col01_lo
  let ans23 := lhs_hi_rhs_hi + col12_hi + if carry_col3 then 2 ^ 64 else 0
  (ans23, ans01)

/-- Modelled from the spec: the `WideDivRem::lo_div_from` primitive lives in
`wide_div.rs`, which is not among the provided sources.  Per spec §4.3/§9 it is
"a long-division-by-known-divisor primitive that produces a single 128-bit
quotient from a 256-bit dividend and a divisor guaranteed to fit the quotient
in one word": the quotient of the 256-bit dividend `hi·2^128 + lo` by the
divisor. -/
def lo_div_from (divisor dividend_hi dividend_lo : Nat) : Nat :=
  ((dividend_hi <<< 128) + dividend_lo) / divisor

/-- `div_wide`, delegating to the wide-division primitive. -/
def div_wide (dividend_hi dividend_lo divisor : Nat) : Nat :=
  lo_div_from divisor dividend_hi dividend_lo

/-- `dec27_27_to_bin128`: two-group (27+27 digit) decimal fraction conversion
for the 128-bit working width. -/
def dec27_27_to_bin128 (hi lo nbits : Nat) : Option Nat :=
  let dump_bits := 128 - nbits
  let divisor : Nat := 5 ^ 54 * 2
  let p := mul_hi_lo hi (10 ^ 27)
  let hi_hi := p.1
  let hi_lo := p.2
  let comb_lo := (hi_lo + lo) % 2 ^ 128
  let comb_hi := if 2 ^ 128 ≤ hi_lo + lo then hi_hi + 1 else hi_hi
  let sh : Nat × Nat :=
    if nbits < 54 - 1 then
      let shr := 54 - 1 - nbits
      (comb_lo >>> shr ||| (comb_hi <<< (128 - shr)) % 2 ^ 128, comb_hi >>> shr)
    else if 54 - 1 < nbits then
      let shl := nbits - (54 - 1)
      ((comb_lo <<< shl) % 2 ^ 128, (comb_hi <<< shl) % 2 ^ 128 ||| comb_lo >>> (128 - shl))
    else (comb_lo, comb_hi)
  let shift_lo := sh.1
  let shift_hi := sh.2
  let round_lo := (shift_lo + divisor / 2) % 2 ^ 128
  let round_hi := if 2 ^ 128 ≤ shift_lo + divisor / 2 then shift_hi + 1 else shift_hi
  let whole_compare :=
    if dump_bits = 0 then round_hi
    else if nbits = 0 then round_lo
    else round_lo >>> nbits ||| (round_hi <<< dump_bits) % 2 ^ 128
  if divisor ≤ whole_compare then none
  else some (div_wide round_hi round_lo divisor)

/-- Scanner state of `parse_bounds` (its five mutable locals). -/
structure PbState where
  sign : Option Bool
  trimmed_int_start : Option Nat
  point : Option Nat
  trimmed_frac_end : Option Nat
  has_any_digit : Bool
deriving DecidableEq, Repr

/-- The character-classification loop of `parse_bounds`. -/
def pbGo (radix : Nat) (can_be_neg : Bool) :
    List Char → Nat → PbState → ParseResult PbState
  | [], _, st => .ok st
  | c :: rest, index, st =>
    if c = '+' then
      if st.sign.isSome || st.point.isSome || st.has_any_digit then .err .InvalidDigit
      else pbGo radix can_be_neg rest (index + 1) { st with sign := some false }
    else if c = '-' then
      if !can_be_neg || st.sign.isSome || st.point.isSome || st.has_any_digit then
        .err .InvalidDigit
      else pbGo radix can_be_neg rest (index + 1) { st with sign := some true }
    else if c = '.' then
      if st.point.isSome then .err .TooManyPoints
      else pbGo radix can_be_neg rest (index + 1)
        { st with point := some index, trimmed_frac_end := some (index + 1) }
    else if isRadixDigit radix c then
      pbGo radix can_be_neg rest (index + 1)
        { st with
          trimmed_int_start :=
            if st.trimmed_int_start.isNone && st.point.isNone && c ≠ '0' then some index
            else st.trimmed_int_start,
          trimmed_frac_end :=
            if st.trimmed_frac_end.isSome && c ≠ '0' then some (index + 1)
            else st.trimmed_frac_end,
          has_any_digit := true }
    else .err .InvalidDigit

/-- `parse_bounds`: lexical validation producing the trimmed spans. -/
def parse_bounds (s : List Char) (can_be_neg : Bool) (radix : Nat) :
    ParseResult ParseSpans :=
  match pbGo radix can_be_neg s 0 ⟨none, none, none, none, false⟩ with
  | .err e => .err e
  | .ok st =>
    if !st.has_any_digit then .err .NoDigits
    else
      let neg := st.sign.getD false
      let int : List Char :=
        match st.trimmed_int_start, st.point with
        | some start, some point => (s.drop start).take (point - start)
        | some start, none => s.drop start
        | none, _ => []
      let frac : List Char :=
        match st.point, st.trimmed_frac_end with
        | some point, some e => (s.drop (point + 1)).take (e - (point + 1))
        | _, _ => []
      .ok ⟨neg, int, frac⟩

/-- `get_frac8_dec`: truncate to 3 decimal digits, zero-pad, convert. -/
def get_frac8_dec (frac : List Char) (nbits : Nat) : Option Nat :=
  let e := min frac.length 3
  let rem := 3 - e
  dec3_to_bin8 (val10 (frac.take e) * 10 ^ rem) nbits

/-- `get_frac16_dec`. -/
def get_frac16_dec (frac : List Char) (nbits : Nat) : Option Nat :=
  let e := min frac.length 6
  let rem := 6 - e
  dec6_to_bin16 (val10 (frac.take e) * 10 ^ rem) nbits

/-- `get_frac32_dec`. -/
def get_frac32_dec (frac : List Char) (nbits : Nat) : Option Nat :=
  let e := min frac.length 13
  let rem := 13 - e
  dec13_to_bin32 (val10 (frac.take e) * 10 ^ rem) nbits

/-- `get_frac64_dec`. -/
def get_frac64_dec (frac : List Char) (nbits : Nat) : Option Nat :=
  let e := min frac.length 27
  let rem := 27 - e
  dec27_to_bin64 (val10 (frac.take e) * 10 ^ rem) nbits

/-- `get_frac128_dec`: split the span into two 27-digit groups. -/
def get_frac128_dec (frac : List Char) (nbits : Nat) : Option Nat :=
  if frac.length ≤ 27 then
    let rem := 27 - frac.length
    dec27_27_to_bin128 (val10 frac * 10 ^ rem) 0 nbits
  else
    let hi := val10 (frac.take 27)
    let lo_end := min frac.length 54
    let rem := 54 - lo_end
    let lo := val10 ((frac.drop 27).take (lo_end - 27)) * 10 ^ rem
    dec27_27_to_bin128 hi lo nbits

/-- Body of the macro-generated `$int` getters (the non-delegating branch),
parameterised by the working width `w`. -/
def giBody (w : Nat) (int : List Char) (radix nbits : Nat) (whole_frac : Bool) :
    Option Nat :=
  if int.isEmpty && !whole_frac then some 0
  else if int.isEmpty || nbits == 0 then none
  else
    (if radix = 2 then bin_str_int_to_bin w int
     else if radix = 8 then oct_str_int_to_bin w int
     else if radix = 16 then hex_str_int_to_bin w int
     else if radix = 10 then dec_str_int_to_bin w int
     else none).bind fun parsed =>
    (if whole_frac then checked_add w parsed 1 else some parsed).bind fun parsed' =>
    if 0 < w - nbits ∧ parsed' >>> nbits ≠ 0 then none
    else some ((parsed' <<< (w - nbits)) % 2 ^ w)

/-- Body of the macro-generated `$frac` getters (the non-delegating branch). -/
def gfBody (w : Nat) (frac_dec : List Char → Nat → Option Nat)
    (frac : List Char) (radix nbits : Nat) : Option Nat :=
  if frac.isEmpty then some 0
  else if radix = 2 then bin_str_frac_to_bin w frac nbits
  else if radix = 8 then oct_str_frac_to_bin w frac nbits
  else if radix = 16 then hex_str_frac_to_bin w frac nbits
  else if radix = 10 then frac_dec frac nbits
  else none

/-- `get_int8` (no half-width delegation at width 8). -/
def get_int8 (int : List Char) (radix nbits : Nat) (whole_frac : Bool) : Option Nat :=
  giBody 8 int radix nbits whole_frac

/-- `get_frac8` (no half-width delegation at width 8). -/
def get_frac8 (frac : List Char) (radix nbits : Nat) : Option Nat :=
  gfBody 8 get_frac8_dec frac radix nbits

/-- `get_int16`: delegates to `get_int8` when at most half the width is needed,
shifting the result into the upper half. -/
def get_int16 (int : List Char) (radix nbits : Nat) (whole_frac : Bool) : Option Nat :=
  if nbits ≤ 8 then (get_int8 int radix nbits whole_frac).map fun x => (x <<< 8) % 2 ^ 16
  else giBody 16 int radix nbits whole_frac

/-- `get_frac16`: delegates to `get_frac8` when at most half the width is needed. -/
def get_frac16 (frac : List Char) (radix nbits : Nat) : Option Nat :=
  if nbits ≤ 8 then get_frac8 frac radix nbits
  else gfBody 16 get_frac16_dec frac radix nbits

/-- `from_str_u8` (macro `impl_from_str_unsigned`, width 8): returns the raw
8-bit pattern. -/
def from_str_u8 (s : List Char) (radix int_nbits frac_nbits : Nat) : ParseResult Nat :=
  match parse_bounds s false radix with
  | .err e => .err e
  | .ok p =>
    let fr : Nat × Bool :=
      match get_frac8 p.frac radix frac_nbits with
      | some f => (f, false)
      | none => (0, true)
    match get_int8 p.int radix int_nbits fr.2 with
    | some i => .ok (i ||| fr.1)
    | none => .err .Overflow

/-- `from_str_i8` (macro `impl_from_str_signed`, width 8): returns the raw
8-bit two's-complement pattern. -/
def from_str_i8 (s : List Char) (radix int_nbits frac_nbits : Nat) : ParseResult Nat :=
  match parse_bounds s true radix with
  | .err e => .err e
  | .ok p =>
    let fr : Nat × Bool :=
      match get_frac8 p.frac radix frac_nbits with
      | some f => (f, false)
      | none => (0, true)
    match get_int8 p.int radix int_nbits fr.2 with
    | none => .err .Overflow
    | some abs_int =>
      let abs := abs_int ||| fr.1
      let max_abs := if p.neg then 2 ^ (8 - 1) else 2 ^ (8 - 1) - 1
      if max_abs < abs then .err .Overflow
      else .ok (if p.neg then (2 ^ 8 - abs) % 2 ^ 8 else abs)

/-- `from_str_u16`. -/
def from_str_u16 (s : List Char) (radix int_nbits frac_nbits : Nat) : ParseResult Nat :=
  match parse_bounds s false radix with
  | .err e => .err e
  | .ok p =>
    let fr : Nat × Bool :=
      match get_frac16 p.frac radix frac_nbits with
      | some f => (f, false)
      | none => (0, true)
    match get_int16 p.int radix int_nbits fr.2 with
    | some i => .ok (i ||| fr.1)
    | none => .err .Overflow

/-- `from_str_i16`. -/
def from_str_i16 (s : List Char) (radix int_nbits frac_nbits : Nat) : ParseResult Nat :=
  match parse_bounds s true radix with
  | .err e => .err e
  | .ok p =>
    let fr : Nat × Bool :=
      match get_frac16 p.frac radix frac_nbits with
      | some f => (f, false)
      | none => (0, true)
    match get_int16 p.int radix int_nbits fr.2 with
    | none => .err .Overflow
    | some abs_int =>
      let abs := abs_int ||| fr.1
      let max_abs := if p.neg then 2 ^ (16 - 1) else 2 ^ (16 - 1) - 1
      if max_abs < abs then .err .Overflow
      else .ok (if p.neg then (2 ^ 16 - abs) % 2 ^ 16 else abs)

/-- Round-to-nearest, half-up, of the rational `a / b`, as exact integer
arithmetic: `⌊(2a + b) / 2b⌋`. -/
def roundHalfUp (a b : Nat) : Nat := (2 * a + b) / (2 * b)

/-- The unsigned magnitude assembled by the signed entry points (width 8):
fraction conversion with its carry flag, integer conversion, bitwise union. -/
def signed_abs8 (p : ParseSpans) (radix int_nbits frac_nbits : Nat) : Option Nat :=
  let fr : Nat × Bool :=
    match get_frac8 p.frac radix frac_nbits with
    | some f => (f, false)
    | none => (0, true)
  (get_int8 p.int radix int_nbits fr.2).map fun i => i ||| fr.1

/-- ASCII character of a decimal digit value. -/
def digitChar (d : Nat) : Char :=
  match d with
  | 0 => '0' | 1 => '1' | 2 => '2' | 3 => '3' | 4 => '4'
  | 5 => '5' | 6 => '6' | 7 => '7' | 8 => '8' | _ => '9'

/-- Fixed-width big-endian decimal numeral of `v` (its low `k` digits). -/
def padDigits : Nat → Nat → List Char
  | 0, _ => []
  | k + 1, v => padDigits k (v / 10) ++ [digitChar (v % 10)]

/-- Length of a character list once its trailing `'0'` characters are removed
(the length of the fraction span kept by `parse_bounds`). -/
def trimLen : List Char → Nat
  | [] => 0
  | c :: cs => if trimLen cs = 0 ∧ c = '0' then 0 else trimLen cs + 1

/-- One-past-the-end position of the last non-`'0'` character, starting the
scan at `index` with current value `e` (mirrors `trimmed_frac_end`). -/
def lneAux : List Char → Nat → Nat → Nat
  | [], _, e => e
  | c :: cs, index, e => lneAux cs (index + 1) (if c ≠ '0' then index + 1 else e)

/-! ## Helper lemmas -/

set_option maxRecDepth 10000

theorem isRadixDigit_char_lower {radix : Nat} {c : Char}
    (h : isRadixDigit radix c = true) : 48 ≤ c.toNat := by
  simp only [isRadixDigit, decide_eq_true_eq] at h
  rcases h with ⟨_, h, _⟩ | ⟨_, h, _⟩ | ⟨_, h, _⟩ | ⟨_, h | h | h⟩ <;> omega

theorem isRadixDigit_ne_plus {radix : Nat} {c : Char}
    (h : isRadixDigit radix c = true) : c ≠ '+' := by
  intro hEq
  subst hEq
  exact absurd (isRadixDigit_char_lower h) (by decide)

theorem isRadixDigit_ne_minus {radix : Nat} {c : Char}
    (h : isRadixDigit radix c = true) : c ≠ '-' := by
  intro hEq
  subst hEq
  exact absurd (isRadixDigit_char_lower h) (by decide)

theorem isRadixDigit_ne_point {radix : Nat} {c : Char}
    (h : isRadixDigit radix c = true) : c ≠ '.' := by
  intro hEq
  subst hEq
  exact absurd (isRadixDigit_char_lower h) (by decide)

theorem pbGo_err_lexical {radix : Nat} {cbn : Bool} :
    ∀ (s : List Char) (index : Nat) (st : PbState) (e : ParseErrorKind),
      pbGo radix cbn s index st = .err e →
      e = .InvalidDigit ∨ e = .TooManyPoints := by
  intro s
  induction s with
  | nil => intro index st e h; exact absurd h (by simp [pbGo])
  | cons c rest ih =>
    intro index st e h
    rw [pbGo] at h
    split_ifs at h <;>
      first
        | (exact ih _ _ _ h)
        | (cases h; exact Or.inl rfl)
        | (cases h; exact Or.inr rfl)

theorem parse_bounds_err_lexical {cbn : Bool} {radix : Nat} {s : List Char}
    {e : ParseErrorKind} (h : parse_bounds s cbn radix = .err e) :
    e = .InvalidDigit ∨ e = .NoDigits ∨ e = .TooManyPoints := by
  rw [parse_bounds] at h
  cases hp : pbGo radix cbn s 0 ⟨none, none, none, none, false⟩ with
  | err e' =>
    rw [hp] at h
    injection h with h2
    subst h2
    rcases pbGo_err_lexical s 0 _ e' hp with h1 | h1
    · exact Or.inl h1
    · exact Or.inr (Or.inr h1)
  | ok st =>
    rw [hp] at h
    by_cases hd : st.has_any_digit <;> simp [hd] at h
    exact Or.inr (Or.inl h.symm)

/-! ## Claim theorems -/

theorem div_add_const_div (a c b d : Nat) (hb : 0 < b) :
    (a / b + c) / d = (a + c * b) / (b * d) := by
  rw [← Nat.div_div_eq_div_mul]
  congr 1
  rw [Nat.add_mul_div_right a c hb]

theorem div_eq_div_of_cross {n1 d1 n2 d2 : Nat} (h1 : 0 < d1) (h2 : 0 < d2)
    (h : n1 * d2 = n2 * d1) : n1 / d1 = n2 / d2 := by
  have e1 : n1 / d1 = n1 * d2 / (d1 * d2) := by
    rw [Nat.mul_div_mul_right _ _ h2]
  have e2 : n2 / d2 = n2 * d1 / (d2 * d1) := by
    rw [Nat.mul_div_mul_right _ _ h1]
  rw [e1, e2, h, Nat.mul_comm d1 d2]

theorem dec6_round (v nbits : Nat) (hv : v < 10 ^ 6) (hn : nbits ≤ 16) :
    dec6_to_bin16 v nbits =
      if roundHalfUp (v * 2 ^ nbits) (10 ^ 6) < 2 ^ nbits
      then some (roundHalfUp (v * 2 ^ nbits) (10 ^ 6)) else none := by
  have hv' : v < 1000000 := by omega
  have hk : nbits + (16 - nbits) = 16 := by omega
  have hMk : 2 ^ nbits * 2 ^ (16 - nbits) = 65536 := by
    rw [← pow_add, hk]
    norm_num
  have hkpos : 0 < 2 ^ (16 - nbits) := Nat.two_pow_pos _
  have hA1 : (v * 2048 / 2 ^ (16 - nbits) + 15625) / 31250
      = (v * 2048 + 15625 * 2 ^ (16 - nbits)) / (2 ^ (16 - nbits) * 31250) :=
    div_add_const_div _ _ _ _ hkpos
  have hA2 : (v * 2048 / 2 ^ (16 - nbits) + 15625) / 2 ^ nbits
      = (v * 2048 + 15625 * 2 ^ (16 - nbits)) / 65536 := by
    rw [div_add_const_div _ _ _ _ hkpos, mul_comm (2 ^ (16 - nbits)) (2 ^ nbits), hMk]
  have hcross : (2 * (v * 2 ^ nbits) + 10 ^ 6) * (2 ^ (16 - nbits) * 31250)
      = (v * 2048 + 15625 * 2 ^ (16 - nbits)) * (2 * 10 ^ 6) := by
    have e1 : (2 * (v * 2 ^ nbits) + 10 ^ 6) * (2 ^ (16 - nbits) * 31250)
        = 2 ^ nbits * 2 ^ (16 - nbits) * (62500 * v) + 31250000000 * 2 ^ (16 - nbits) := by
      ring
    rw [e1, hMk]
    ring
  have hRHU : roundHalfUp (v * 2 ^ nbits) (10 ^ 6)
      = (v * 2048 + 15625 * 2 ^ (16 - nbits)) / (2 ^ (16 - nbits) * 31250) := by
    rw [roundHalfUp]
    exact div_eq_div_of_cross (by norm_num) (by positivity) hcross
  have hprod : 2 ^ nbits * (2 ^ (16 - nbits) * 31250) = 2048000000 := by
    rw [← mul_assoc, hMk]
    norm_num
  have hg1 : (31250 ≤ (v * 2048 + 15625 * 2 ^ (16 - nbits)) / 65536)
      ↔ 2048000000 ≤ v * 2048 + 15625 * 2 ^ (16 - nbits) := by
    rw [Nat.le_div_iff_mul_le (show 0 < 65536 by norm_num)]
  have hg2 : ((v * 2048 + 15625 * 2 ^ (16 - nbits)) / (2 ^ (16 - nbits) * 31250) < 2 ^ nbits)
      ↔ v * 2048 + 15625 * 2 ^ (16 - nbits) < 2048000000 := by
    rw [Nat.div_lt_iff_lt_mul (by positivity), hprod]
  have hmod : v * 2 ^ (16 - 6 + 1) % 2 ^ 32 = v * 2048 := by
    norm_num
    omega
  rw [dec6_to_bin16, Nat.shiftLeft_eq, hmod, Nat.shiftRight_eq_div_pow,
    Nat.shiftRight_eq_div_pow]
  have c2 : (5 : Nat) ^ 6 * 2 / 2 = 15625 := by norm_num
  have c1 : (5 : Nat) ^ 6 * 2 = 31250 := by norm_num
  rw [c2, c1, hA2, hA1, ← hRHU]
  by_cases hg : 2048000000 ≤ v * 2048 + 15625 * 2 ^ (16 - nbits)
  · rw [if_pos (hg1.mpr hg),
      if_neg (show ¬(roundHalfUp (v * 2 ^ nbits) (10 ^ 6) < 2 ^ nbits) from
        fun hcon => absurd (hg2.mp (hRHU ▸ hcon)) (by omega))]
  · have hlt : roundHalfUp (v * 2 ^ nbits) (10 ^ 6) < 2 ^ nbits := by
      rw [hRHU]
      exact hg2.mpr (by omega)
    rw [if_neg (fun hcon => hg (hg1.mp hcon)), if_pos hlt,
      Nat.mod_eq_of_lt (lt_of_lt_of_le hlt (Nat.pow_le_pow_right (by norm_num) hn))]

theorem dec3_round (v nbits : Nat) (hv : v < 10 ^ 3) (hn : nbits ≤ 8) :
    dec3_to_bin8 v nbits =
      if roundHalfUp (v * 2 ^ nbits) (10 ^ 3) < 2 ^ nbits
      then some (roundHalfUp (v * 2 ^ nbits) (10 ^ 3)) else none := by
  have hv' : v < 1000 := by omega
  have hk : nbits + (8 - nbits) = 8 := by omega
  have hMk : 2 ^ nbits * 2 ^ (8 - nbits) = 256 := by
    rw [← pow_add, hk]
    norm_num
  have hkpos : 0 < 2 ^ (8 - nbits) := Nat.two_pow_pos _
  have hA1 : (v * 64 / 2 ^ (8 - nbits) + 125) / 250
      = (v * 64 + 125 * 2 ^ (8 - nbits)) / (2 ^ (8 - nbits) * 250) :=
    div_add_const_div _ _ _ _ hkpos
  have hA2 : (v * 64 / 2 ^ (8 - nbits) + 125) / 2 ^ nbits
      = (v * 64 + 125 * 2 ^ (8 - nbits)) / 256 := by
    rw [div_add_const_div _ _ _ _ hkpos, mul_comm (2 ^ (8 - nbits)) (2 ^ nbits), hMk]
  have hcross : (2 * (v * 2 ^ nbits) + 10 ^ 3) * (2 ^ (8 - nbits) * 250)
      = (v * 64 + 125 * 2 ^ (8 - nbits)) * (2 * 10 ^ 3) := by
    have e1 : (2 * (v * 2 ^ nbits) + 10 ^ 3) * (2 ^ (8 - nbits) * 250)
        = 2 ^ nbits * 2 ^ (8 - nbits) * (500 * v) + 250000 * 2 ^ (8 - nbits) := by
      ring
    rw [e1, hMk]
    ring
  have hRHU : roundHalfUp (v * 2 ^ nbits) (10 ^ 3)
      = (v * 64 + 125 * 2 ^ (8 - nbits)) / (2 ^ (8 - nbits) * 250) := by
    rw [roundHalfUp]
    exact div_eq_div_of_cross (by norm_num) (by positivity) hcross
  have hprod : 2 ^ nbits * (2 ^ (8 - nbits) * 250) = 64000 := by
    rw [← mul_assoc, hMk]
    norm_num
  have hg1 : (250 ≤ (v * 64 + 125 * 2 ^ (8 - nbits)) / 256)
      ↔ 64000 ≤ v * 64 + 125 * 2 ^ (8 - nbits) := by
    rw [Nat.le_div_iff_mul_le (show 0 < 256 by norm_num)]
  have hg2 : ((v * 64 + 125 * 2 ^ (8 - nbits)) / (2 ^ (8 - nbits) * 250) < 2 ^ nbits)
      ↔ v * 64 + 125 * 2 ^ (8 - nbits) < 64000 := by
    rw [Nat.div_lt_iff_lt_mul (by positivity), hprod]
  have hmod : v * 2 ^ (8 - 3 + 1) % 2 ^ 16 = v * 64 := by
    norm_num
    omega
  rw [dec3_to_bin8, Nat.shiftLeft_eq, hmod, Nat.shiftRight_eq_div_pow,
    Nat.shiftRight_eq_div_pow]
  have c2 : (5 : Nat) ^ 3 * 2 / 2 = 125 := by norm_num
  have c1 : (5 : Nat) ^ 3 * 2 = 250 := by norm_num
  rw [c2, c1, hA2, hA1, ← hRHU]
  by_cases hg : 64000 ≤ v * 64 + 125 * 2 ^ (8 - nbits)
  · rw [if_pos (hg1.mpr hg),
      if_neg (show ¬(roundHalfUp (v * 2 ^ nbits) (10 ^ 3) < 2 ^ nbits) from
        fun hcon => absurd (hg2.mp (hRHU ▸ hcon)) (by omega))]
  · have hlt : roundHalfUp (v * 2 ^ nbits) (10 ^ 3) < 2 ^ nbits := by
      rw [hRHU]
      exact hg2.mpr (by omega)
    rw [if_neg (fun hcon => hg (hg1.mp hcon)), if_pos hlt,
      Nat.mod_eq_of_lt (lt_of_lt_of_le hlt (Nat.pow_le_pow_right (by norm_num) hn))]

theorem dec13_round (v nbits : Nat) (hv : v < 10 ^ 13) (hn : nbits ≤ 32) :
    dec13_to_bin32 v nbits =
      if roundHalfUp (v * 2 ^ nbits) (10 ^ 13) < 2 ^ nbits
      then some (roundHalfUp (v * 2 ^ nbits) (10 ^ 13)) else none := by
  have hv' : v < 10000000000000 := by omega
  have hk : nbits + (32 - nbits) = 32 := by omega
  have hMk : 2 ^ nbits * 2 ^ (32 - nbits) = 4294967296 := by
    rw [← pow_add, hk]
    norm_num
  have hkpos : 0 < 2 ^ (32 - nbits) := Nat.two_pow_pos _
  have hA1 : (v * 1048576 / 2 ^ (32 - nbits) + 1220703125) / 2441406250
      = (v * 1048576 + 1220703125 * 2 ^ (32 - nbits)) / (2 ^ (32 - nbits) * 2441406250) :=
    div_add_const_div _ _ _ _ hkpos
  have hA2 : (v * 1048576 / 2 ^ (32 - nbits) + 1220703125) / 2 ^ nbits
      = (v * 1048576 + 1220703125 * 2 ^ (32 - nbits)) / 4294967296 := by
    rw [div_add_const_div _ _ _ _ hkpos, mul_comm (2 ^ (32 - nbits)) (2 ^ nbits), hMk]
  have hcross : (2 * (v * 2 ^ nbits) + 10 ^ 13) * (2 ^ (32 - nbits) * 2441406250)
      = (v * 1048576 + 1220703125 * 2 ^ (32 - nbits)) * (2 * 10 ^ 13) := by
    have e1 : (2 * (v * 2 ^ nbits) + 10 ^ 13) * (2 ^ (32 - nbits) * 2441406250)
        = 2 ^ nbits * 2 ^ (32 - nbits) * (4882812500 * v) + 24414062500000000000000 * 2 ^ (32 - nbits) := by
      ring
    rw [e1, hMk]
    ring
  have hRHU : roundHalfUp (v * 2 ^ nbits) (10 ^ 13)
      = (v * 1048576 + 1220703125 * 2 ^ (32 - nbits)) / (2 ^ (32 - nbits) * 2441406250) := by
    rw [roundHalfUp]
    exact div_eq_div_of_cross (by norm_num) (by positivity) hcross
  have hprod : 2 ^ nbits * (2 ^ (32 - nbits) * 2441406250) = 10485760000000000000 := by
    rw [← mul_assoc, hMk]
    norm_num
  have hg1 : (2441406250 ≤ (v * 1048576 + 1220703125 * 2 ^ (32 - nbits)) / 4294967296)
      ↔ 10485760000000000000 ≤ v * 1048576 + 1220703125 * 2 ^ (32 - nbits) := by
    rw [Nat.le_div_iff_mul_le (show 0 < 4294967296 by norm_num)]
  have hg2 : ((v * 1048576 + 1220703125 * 2 ^ (32 - nbits)) / (2 ^ (32 - nbits) * 2441406250) < 2 ^ nbits)
      ↔ v * 1048576 + 1220703125 * 2 ^ (32 - nbits) < 10485760000000000000 := by
    rw [Nat.div_lt_iff_lt_mul (by positivity), hprod]
  have hmod : v * 2 ^ (32 - 13 + 1) % 2 ^ 64 = v * 1048576 := by
    norm_num
    omega
  rw [dec13_to_bin32, Nat.shiftLeft_eq, hmod, Nat.shiftRight_eq_div_pow,
    Nat.shiftRight_eq_div_pow]
  have c2 : (5 : Nat) ^ 13 * 2 / 2 = 1220703125 := by norm_num
  have c1 : (5 : Nat) ^ 13 * 2 = 2441406250 := by norm_num
  rw [c2, c1, hA2, hA1, ← hRHU]
  by_cases hg : 10485760000000000000 ≤ v * 1048576 + 1220703125 * 2 ^ (32 - nbits)
  · rw [if_pos (hg1.mpr hg),
      if_neg (show ¬(roundHalfUp (v * 2 ^ nbits) (10 ^ 13) < 2 ^ nbits) from
        fun hcon => absurd (hg2.mp (hRHU ▸ hcon)) (by omega))]
  · have hlt : roundHalfUp (v * 2 ^ nbits) (10 ^ 13) < 2 ^ nbits := by
      rw [hRHU]
      exact hg2.mpr (by omega)
    rw [if_neg (fun hcon => hg (hg1.mp hcon)), if_pos hlt,
      Nat.mod_eq_of_lt (lt_of_lt_of_le hlt (Nat.pow_le_pow_right (by norm_num) hn))]

theorem dec27_round (v nbits : Nat) (hv : v < 10 ^ 27) (hn : nbits ≤ 64) :
    dec27_to_bin64 v nbits =
      if roundHalfUp (v * 2 ^ nbits) (10 ^ 27) < 2 ^ nbits
      then some (roundHalfUp (v * 2 ^ nbits) (10 ^ 27)) else none := by
  have hv' : v < 1000000000000000000000000000 := by omega
  have hk : nbits + (64 - nbits) = 64 := by omega
  have hMk : 2 ^ nbits * 2 ^ (64 - nbits) = 18446744073709551616 := by
    rw [← pow_add, hk]
    norm_num
  have hkpos : 0 < 2 ^ (64 - nbits) := Nat.two_pow_pos _
  have hA1 : (v * 274877906944 / 2 ^ (64 - nbits) + 7450580596923828125) / 14901161193847656250
      = (v * 274877906944 + 7450580596923828125 * 2 ^ (64 - nbits)) / (2 ^ (64 - nbits) * 14901161193847656250) :=
    div_add_const_div _ _ _ _ hkpos
  have hA2 : (v * 274877906944 / 2 ^ (64 - nbits) + 7450580596923828125) / 2 ^ nbits
      = (v * 274877906944 + 7450580596923828125 * 2 ^ (64 - nbits)) / 18446744073709551616 := by
    rw [div_add_const_div _ _ _ _ hkpos, mul_comm (2 ^ (64 - nbits)) (2 ^ nbits), hMk]
  have hcross : (2 * (v * 2 ^ nbits) + 10 ^ 27) * (2 ^ (64 - nbits) * 14901161193847656250)
      = (v * 274877906944 + 7450580596923828125 * 2 ^ (64 - nbits)) * (2 * 10 ^ 27) := by
    have e1 : (2 * (v * 2 ^ nbits) + 10 ^ 27) * (2 ^ (64 - nbits) * 14901161193847656250)
        = 2 ^ nbits * 2 ^ (64 - nbits) * (29802322387695312500 * v) + 14901161193847656250000000000000000000000000000 * 2 ^ (64 - nbits) := by
      ring
    rw [e1, hMk]
    ring
  have hRHU : roundHalfUp (v * 2 ^ nbits) (10 ^ 27)
      = (v * 274877906944 + 7450580596923828125 * 2 ^ (64 - nbits)) / (2 ^ (64 - nbits) * 14901161193847656250) := by
    rw [roundHalfUp]
    exact div_eq_div_of_cross (by norm_num) (by positivity) hcross
  have hprod : 2 ^ nbits * (2 ^ (64 - nbits) * 14901161193847656250) = 274877906944000000000000000000000000000 := by
    rw [← mul_assoc, hMk]
    norm_num
  have hg1 : (14901161193847656250 ≤ (v * 274877906944 + 7450580596923828125 * 2 ^ (64 - nbits)) / 18446744073709551616)
      ↔ 274877906944000000000000000000000000000 ≤ v * 274877906944 + 7450580596923828125 * 2 ^ (64 - nbits) := by
    rw [Nat.le_div_iff_mul_le (show 0 < 18446744073709551616 by norm_num)]
  have hg2 : ((v * 274877906944 + 7450580596923828125 * 2 ^ (64 - nbits)) / (2 ^ (64 - nbits) * 14901161193847656250) < 2 ^ nbits)
      ↔ v * 274877906944 + 7450580596923828125 * 2 ^ (64 - nbits) < 274877906944000000000000000000000000000 := by
    rw [Nat.div_lt_iff_lt_mul (by positivity), hprod]
  have hmod : v * 2 ^ (64 - 27 + 1) % 2 ^ 128 = v * 274877906944 := by
    norm_num
    omega
  rw [dec27_to_bin64, Nat.shiftLeft_eq, hmod, Nat.shiftRight_eq_div_pow,
    Nat.shiftRight_eq_div_pow]
  have c2 : (5 : Nat) ^ 27 * 2 / 2 = 7450580596923828125 := by norm_num
  have c1 : (5 : Nat) ^ 27 * 2 = 14901161193847656250 := by norm_num
  rw [c2, c1, hA2, hA1, ← hRHU]
  by_cases hg : 274877906944000000000000000000000000000 ≤ v * 274877906944 + 7450580596923828125 * 2 ^ (64 - nbits)
  · rw [if_pos (hg1.mpr hg),
      if_neg (show ¬(roundHalfUp (v * 2 ^ nbits) (10 ^ 27) < 2 ^ nbits) from
        fun hcon => absurd (hg2.mp (hRHU ▸ hcon)) (by omega))]
  · have hlt : roundHalfUp (v * 2 ^ nbits) (10 ^ 27) < 2 ^ nbits := by
      rw [hRHU]
      exact hg2.mpr (by omega)
    rw [if_neg (fun hcon => hg (hg1.mp hcon)), if_pos hlt,
      Nat.mod_eq_of_lt (lt_of_lt_of_le hlt (Nat.pow_le_pow_right (by norm_num) hn))]

theorem mul_hi_lo_spec (a b : Nat) (ha : a < 2 ^ 128) (hb : b < 2 ^ 128) :
    (mul_hi_lo a b).1 * 2 ^ 128 + (mul_hi_lo a b).2 = a * b ∧
    (mul_hi_lo a b).2 < 2 ^ 128 := by
  have hand : ∀ x : Nat, x &&& (2 ^ 64 - 1) = x % 2 ^ 64 := fun x =>
    Nat.and_pow_two_sub_one_eq_mod x 64
  have hsr : ∀ x : Nat, x >>> 64 = x / 2 ^ 64 := fun x =>
    Nat.shiftRight_eq_div_pow x 64
  have hab : a * b = a / 2 ^ 64 * (b / 2 ^ 64) * 2 ^ 128
      + (a / 2 ^ 64 * (b % 2 ^ 64) + a % 2 ^ 64 * (b / 2 ^ 64)) * 2 ^ 64
      + a % 2 ^ 64 * (b % 2 ^ 64) := by
    conv_lhs => rw [← Nat.div_add_mod a (2 ^ 64), ← Nat.div_add_mod b (2 ^ 64)]
    ring
  have hahlt : a / 2 ^ 64 < 2 ^ 64 := by omega
  have hbhlt : b / 2 ^ 64 < 2 ^ 64 := by omega
  have hallt : a % 2 ^ 64 < 2 ^ 64 := Nat.mod_lt _ (by norm_num)
  have hbllt : b % 2 ^ 64 < 2 ^ 64 := Nat.mod_lt _ (by norm_num)
  have b00 : a % 2 ^ 64 * (b % 2 ^ 64) ≤ (2 ^ 64 - 1) * (2 ^ 64 - 1) :=
    Nat.mul_le_mul (by omega) (by omega)
  have b10 : a / 2 ^ 64 * (b % 2 ^ 64) ≤ (2 ^ 64 - 1) * (2 ^ 64 - 1) :=
    Nat.mul_le_mul (by omega) (by omega)
  have b01 : a % 2 ^ 64 * (b / 2 ^ 64) ≤ (2 ^ 64 - 1) * (2 ^ 64 - 1) :=
    Nat.mul_le_mul (by omega) (by omega)
  have b11 : a / 2 ^ 64 * (b / 2 ^ 64) ≤ (2 ^ 64 - 1) * (2 ^ 64 - 1) :=
    Nat.mul_le_mul (by omega) (by omega)
  simp only [mul_hi_lo, hand, hsr, Nat.shiftLeft_eq]
  generalize hP00 : a % 2 ^ 64 * (b % 2 ^ 64) = p00 at *
  generalize hP10 : a / 2 ^ 64 * (b % 2 ^ 64) = p10 at *
  generalize hP01 : a % 2 ^ 64 * (b / 2 ^ 64) = p01 at *
  generalize hP11 : a / 2 ^ 64 * (b / 2 ^ 64) = p11 at *
  generalize hAB : a * b = ab at *
  split <;> omega

theorem dec_guard_value (N nbits R : Nat)
    (hR : R = N * 2 ^ (nbits + 1) / 2 ^ 54 + 5 ^ 54) :
    ((5 ^ 54 * 2 ≤ R / 2 ^ nbits) ↔ ¬(roundHalfUp (N * 2 ^ nbits) (10 ^ 54) < 2 ^ nbits)) ∧
    R / (5 ^ 54 * 2) = roundHalfUp (N * 2 ^ nbits) (10 ^ 54) := by
  have h10 : (10 : Nat) ^ 54 = 2 ^ 54 * 5 ^ 54 := by
    rw [show (10 : Nat) = 2 * 5 from rfl, mul_pow]
  have hpos54 : 0 < (2 : Nat) ^ 54 := Nat.two_pow_pos _
  have m1 : R / 2 ^ nbits
      = (N * 2 ^ (nbits + 1) + 5 ^ 54 * 2 ^ 54) / (2 ^ 54 * 2 ^ nbits) := by
    rw [hR, div_add_const_div _ _ _ _ hpos54]
  have m2 : R / (5 ^ 54 * 2)
      = (N * 2 ^ (nbits + 1) + 5 ^ 54 * 2 ^ 54) / (2 ^ 54 * (5 ^ 54 * 2)) := by
    rw [hR, div_add_const_div _ _ _ _ hpos54]
  have hRHU : roundHalfUp (N * 2 ^ nbits) (10 ^ 54)
      = (N * 2 ^ (nbits + 1) + 5 ^ 54 * 2 ^ 54) / (2 ^ 54 * (5 ^ 54 * 2)) := by
    rw [roundHalfUp]
    congr 1
    rw [h10]
    ring
  refine ⟨?_, by rw [m2, hRHU]⟩
  rw [m1, hRHU, not_lt, Nat.le_div_iff_mul_le (by positivity),
    Nat.le_div_iff_mul_le (by positivity),
    show 5 ^ 54 * 2 * (2 ^ 54 * 2 ^ nbits) = 2 ^ nbits * (2 ^ 54 * (5 ^ 54 * 2)) from by ring]

theorem dec27_27_tail2 (N nbits RH RL : Nat) (hn : nbits ≤ 128)
    (hR : RH * 2 ^ 128 + RL = N * 2 ^ (nbits + 1) / 2 ^ 54 + 5 ^ 54)
    (hRL : RL < 2 ^ 128) (hRH : RH < 2 ^ nbits) :
    (if 5 ^ 54 * 2 ≤
        (if 128 - nbits = 0 then RH
         else if nbits = 0 then RL
         else RL >>> nbits ||| (RH <<< (128 - nbits)) % 2 ^ 128)
      then none else some (div_wide RH RL (5 ^ 54 * 2)))
    = if roundHalfUp (N * 2 ^ nbits) (10 ^ 54) < 2 ^ nbits
      then some (roundHalfUp (N * 2 ^ nbits) (10 ^ 54)) else none := by
  obtain ⟨hg, hv⟩ := dec_guard_value N nbits (N * 2 ^ (nbits + 1) / 2 ^ 54 + 5 ^ 54) rfl
  have hwc : (if 128 - nbits = 0 then RH
         else if nbits = 0 then RL
         else RL >>> nbits ||| (RH <<< (128 - nbits)) % 2 ^ 128)
      = (N * 2 ^ (nbits + 1) / 2 ^ 54 + 5 ^ 54) / 2 ^ nbits := by
    by_cases h1 : 128 - nbits = 0
    · rw [if_pos h1]
      have hn128 : nbits = 128 := by omega
      subst hn128
      omega
    · rw [if_neg h1]
      by_cases h0 : nbits = 0
      · rw [if_pos h0]
        subst h0
        omega
      · rw [if_neg h0]
        rw [Nat.shiftRight_eq_div_pow, Nat.shiftLeft_eq]
        have e1 : (2 : Nat) ^ (128 - nbits) * 2 ^ nbits = 2 ^ 128 := by
          rw [← pow_add]
          congr 1
          omega
        have hx : RH * 2 ^ (128 - nbits) < 2 ^ 128 := by
          calc RH * 2 ^ (128 - nbits) < 2 ^ nbits * 2 ^ (128 - nbits) :=
                (Nat.mul_lt_mul_right (Nat.two_pow_pos _)).mpr hRH
            _ = 2 ^ 128 := by rw [mul_comm]; exact e1
        rw [Nat.mod_eq_of_lt hx]
        have hlow : RL / 2 ^ nbits < 2 ^ (128 - nbits) := by
          rw [Nat.div_lt_iff_lt_mul (Nat.two_pow_pos _), e1]
          exact hRL
        rw [Nat.lor_comm, mul_comm RH, ← Nat.mul_add_lt_is_or hlow]
        rw [← hR,
          show RH * 2 ^ 128 + RL = RL + RH * 2 ^ (128 - nbits) * 2 ^ nbits from by
            rw [show (2 : Nat) ^ 128 = 2 ^ (128 - nbits) * 2 ^ nbits from e1.symm]
            ring,
          Nat.add_mul_div_right _ _ (Nat.two_pow_pos _)]
        ring
  rw [hwc]
  by_cases hcase : roundHalfUp (N * 2 ^ nbits) (10 ^ 54) < 2 ^ nbits
  · rw [if_neg (fun hcon => (hg.mp hcon) hcase), if_pos hcase, div_wide, lo_div_from,
      Nat.shiftLeft_eq, hR, hv]
  · rw [if_pos (hg.mpr hcase), if_neg hcase]

theorem dec27_27_tail (N nbits SHI SL : Nat) (hn : nbits ≤ 128) (hN : N < 10 ^ 54)
    (hS : SHI * 2 ^ 128 + SL = N * 2 ^ (nbits + 1) / 2 ^ 54) (hSL : SL < 2 ^ 128) :
    (if 5 ^ 54 * 2 ≤
        (if 128 - nbits = 0 then if 2 ^ 128 ≤ SL + 5 ^ 54 * 2 / 2 then SHI + 1 else SHI
         else if nbits = 0 then (SL + 5 ^ 54 * 2 / 2) % 2 ^ 128
         else ((SL + 5 ^ 54 * 2 / 2) % 2 ^ 128) >>> nbits |||
            ((if 2 ^ 128 ≤ SL + 5 ^ 54 * 2 / 2 then SHI + 1 else SHI) <<< (128 - nbits)) % 2 ^ 128)
      then none
      else some (div_wide (if 2 ^ 128 ≤ SL + 5 ^ 54 * 2 / 2 then SHI + 1 else SHI)
          ((SL + 5 ^ 54 * 2 / 2) % 2 ^ 128) (5 ^ 54 * 2)))
    = if roundHalfUp (N * 2 ^ nbits) (10 ^ 54) < 2 ^ nbits
      then some (roundHalfUp (N * 2 ^ nbits) (10 ^ 54)) else none := by
  have h554 : (5 : Nat) ^ 54 * 2 / 2 = 5 ^ 54 := by omega
  rw [h554]
  have hRb : N * 2 ^ (nbits + 1) / 2 ^ 54 + 5 ^ 54 < 2 ^ nbits * 2 ^ 128 := by
    have hs1 : N * 2 ^ (nbits + 1) / 2 ^ 54 < 5 ^ 54 * 2 ^ (nbits + 1) := by
      rw [Nat.div_lt_iff_lt_mul (Nat.two_pow_pos 54)]
      calc N * 2 ^ (nbits + 1) < 10 ^ 54 * 2 ^ (nbits + 1) :=
            (Nat.mul_lt_mul_right (Nat.two_pow_pos _)).mpr hN
        _ = 5 ^ 54 * 2 ^ (nbits + 1) * 2 ^ 54 := by
            rw [show (10 : Nat) ^ 54 = 2 ^ 54 * 5 ^ 54 from by
              rw [show (10 : Nat) = 2 * 5 from rfl, mul_pow]]
            ring
    have e1 : 5 ^ 54 * 2 ^ (nbits + 1) + 5 ^ 54 ≤ 2 ^ nbits * 2 ^ 128 := by
      have h5 : (5 : Nat) ^ 54 ≤ 2 ^ 126 := by norm_num
      calc 5 ^ 54 * 2 ^ (nbits + 1) + 5 ^ 54
          ≤ 2 ^ 126 * 2 ^ (nbits + 1) + 2 ^ 126 * 2 ^ nbits := by
            have h2 : (2 : Nat) ^ 126 ≤ 2 ^ 126 * 2 ^ nbits :=
              Nat.le_mul_of_pos_right _ (Nat.two_pow_pos _)
            exact Nat.add_le_add (Nat.mul_le_mul_right _ h5) (le_trans h5 h2)
        _ = 2 ^ nbits * (2 ^ 127 + 2 ^ 126) := by
            rw [pow_succ]
            ring
        _ ≤ 2 ^ nbits * 2 ^ 128 := Nat.mul_le_mul_left _ (by norm_num)
    omega
  by_cases hc : 2 ^ 128 ≤ SL + 5 ^ 54
  · rw [if_pos hc, show (SL + 5 ^ 54) % 2 ^ 128 = SL + 5 ^ 54 - 2 ^ 128 from by omega]
    exact dec27_27_tail2 N nbits (SHI + 1) (SL + 5 ^ 54 - 2 ^ 128) hn (by omega) (by omega)
      (by omega)
  · rw [if_neg hc, show (SL + 5 ^ 54) % 2 ^ 128 = SL + 5 ^ 54 from by omega]
    exact dec27_27_tail2 N nbits SHI (SL + 5 ^ 54) hn (by omega) (by omega) (by omega)

theorem dec27_27_round (hi lo nbits : Nat) (hhi : hi < 10 ^ 27) (hlo : lo < 10 ^ 27)
    (hn : nbits ≤ 128) :
    dec27_27_to_bin128 hi lo nbits =
      if roundHalfUp ((hi * 10 ^ 27 + lo) * 2 ^ nbits) (10 ^ 54) < 2 ^ nbits
      then some (roundHalfUp ((hi * 10 ^ 27 + lo) * 2 ^ nbits) (10 ^ 54)) else none := by
  obtain ⟨hm1, hm2⟩ := mul_hi_lo_spec hi (10 ^ 27) (lt_trans hhi (by norm_num)) (by norm_num)
  have hN : hi * 10 ^ 27 + lo < 10 ^ 54 := by
    have h1 : hi * 10 ^ 27 ≤ (10 ^ 27 - 1) * 10 ^ 27 := Nat.mul_le_mul_right _ (by omega)
    omega
  simp only [dec27_27_to_bin128]
  generalize hP : mul_hi_lo hi (10 ^ 27) = P at hm1 hm2 ⊢
  have hcomb : (if 2 ^ 128 ≤ P.2 + lo then P.1 + 1 else P.1) * 2 ^ 128
      + (P.2 + lo) % 2 ^ 128 = hi * 10 ^ 27 + lo := by
    split <;> omega
  have hCL : (P.2 + lo) % 2 ^ 128 < 2 ^ 128 := Nat.mod_lt _ (by norm_num)
  generalize hgH : (if 2 ^ 128 ≤ P.2 + lo then P.1 + 1 else P.1) = CH at hcomb ⊢
  generalize hgL : (P.2 + lo) % 2 ^ 128 = CL at hcomb hCL ⊢
  generalize hgN : hi * 10 ^ 27 + lo = N at hcomb hN ⊢
  have hCHb : CH < 2 ^ 52 := by omega
  by_cases hb1 : nbits < 54 - 1
  · rw [if_pos hb1]
    have e128 : (2 : Nat) ^ (128 - (54 - 1 - nbits)) * 2 ^ (54 - 1 - nbits) = 2 ^ 128 := by
      rw [← pow_add]
      congr 1
      omega
    have hmodsplit : (CH <<< (128 - (54 - 1 - nbits))) % 2 ^ 128
        = 2 ^ (128 - (54 - 1 - nbits)) * (CH % 2 ^ (54 - 1 - nbits)) := by
      rw [Nat.shiftLeft_eq, ← e128, mul_comm CH, Nat.mul_mod_mul_left]
    have hlow : CL / 2 ^ (54 - 1 - nbits) < 2 ^ (128 - (54 - 1 - nbits)) := by
      rw [Nat.div_lt_iff_lt_mul (Nat.two_pow_pos _), e128]
      exact hCL
    have hor : CL >>> (54 - 1 - nbits) ||| (CH <<< (128 - (54 - 1 - nbits))) % 2 ^ 128
        = 2 ^ (128 - (54 - 1 - nbits)) * (CH % 2 ^ (54 - 1 - nbits))
          + CL / 2 ^ (54 - 1 - nbits) := by
      rw [Nat.shiftRight_eq_div_pow, hmodsplit, Nat.lor_comm, ← Nat.mul_add_lt_is_or hlow]
    have hSL : 2 ^ (128 - (54 - 1 - nbits)) * (CH % 2 ^ (54 - 1 - nbits))
        + CL / 2 ^ (54 - 1 - nbits) < 2 ^ 128 := by
      have hm : CH % 2 ^ (54 - 1 - nbits) < 2 ^ (54 - 1 - nbits) :=
        Nat.mod_lt _ (Nat.two_pow_pos _)
      have hstep : 2 ^ (128 - (54 - 1 - nbits)) * (CH % 2 ^ (54 - 1 - nbits))
          + 2 ^ (128 - (54 - 1 - nbits)) ≤ 2 ^ 128 := by
        rw [show 2 ^ (128 - (54 - 1 - nbits)) * (CH % 2 ^ (54 - 1 - nbits))
              + 2 ^ (128 - (54 - 1 - nbits))
            = 2 ^ (128 - (54 - 1 - nbits)) * (CH % 2 ^ (54 - 1 - nbits) + 1) from by ring,
          ← e128]
        exact Nat.mul_le_mul_left _ (by omega)
      omega
    have hSval : (CH >>> (54 - 1 - nbits)) * 2 ^ 128
        + (2 ^ (128 - (54 - 1 - nbits)) * (CH % 2 ^ (54 - 1 - nbits))
          + CL / 2 ^ (54 - 1 - nbits))
        = N * 2 ^ (nbits + 1) / 2 ^ 54 := by
      rw [Nat.shiftRight_eq_div_pow]
      have hr : N * 2 ^ (nbits + 1) / 2 ^ 54 = N / 2 ^ (54 - 1 - nbits) := by
        rw [show (2 : Nat) ^ 54 = 2 ^ (nbits + 1) * 2 ^ (54 - 1 - nbits) from by
            rw [← pow_add]; congr 1; omega,
          show N * 2 ^ (nbits + 1) = 2 ^ (nbits + 1) * N from mul_comm _ _]
        exact Nat.mul_div_mul_left _ _ (Nat.two_pow_pos _)
      rw [hr, ← hcomb]
      rw [show CH * 2 ^ 128 + CL
          = CL + (CH / 2 ^ (54 - 1 - nbits) * 2 ^ 128
            + (CH % 2 ^ (54 - 1 - nbits)) * 2 ^ (128 - (54 - 1 - nbits)))
              * 2 ^ (54 - 1 - nbits) from by
          conv_lhs => rw [← Nat.div_add_mod CH (2 ^ (54 - 1 - nbits))]
          rw [← e128]
          ring,
        Nat.add_mul_div_right _ _ (Nat.two_pow_pos _)]
      ring
    rw [hor]
    exact dec27_27_tail N nbits (CH >>> (54 - 1 - nbits))
      (2 ^ (128 - (54 - 1 - nbits)) * (CH % 2 ^ (54 - 1 - nbits))
        + CL / 2 ^ (54 - 1 - nbits)) hn hN hSval hSL
  · rw [if_neg hb1]
    by_cases hb2 : 54 - 1 < nbits
    · rw [if_pos hb2]
      have e128b : (2 : Nat) ^ (nbits - (54 - 1)) * 2 ^ (128 - (nbits - (54 - 1)))
          = 2 ^ 128 := by
        rw [← pow_add]
        congr 1
        omega
      have hCHs : CH * 2 ^ (nbits - (54 - 1)) < 2 ^ 128 := by
        calc CH * 2 ^ (nbits - (54 - 1)) < 2 ^ 52 * 2 ^ (nbits - (54 - 1)) :=
              (Nat.mul_lt_mul_right (Nat.two_pow_pos _)).mpr hCHb
          _ ≤ 2 ^ 52 * 2 ^ 75 :=
              Nat.mul_le_mul_left _ (Nat.pow_le_pow_right (by norm_num) (by omega))
          _ < 2 ^ 128 := by norm_num
      have hmodid : (CH <<< (nbits - (54 - 1))) % 2 ^ 128
          = 2 ^ (nbits - (54 - 1)) * CH := by
        rw [Nat.shiftLeft_eq, Nat.mod_eq_of_lt hCHs, mul_comm]
      have hlow2 : CL >>> (128 - (nbits - (54 - 1))) < 2 ^ (nbits - (54 - 1)) := by
        rw [Nat.shiftRight_eq_div_pow, Nat.div_lt_iff_lt_mul (Nat.two_pow_pos _), e128b]
        exact hCL
      have hor2 : (CH <<< (nbits - (54 - 1))) % 2 ^ 128 ||| CL >>> (128 - (nbits - (54 - 1)))
          = 2 ^ (nbits - (54 - 1)) * CH + CL / 2 ^ (128 - (nbits - (54 - 1))) := by
        rw [hmodid, ← Nat.mul_add_lt_is_or hlow2, Nat.shiftRight_eq_div_pow]
      have hSLmod : (CL <<< (nbits - (54 - 1))) % 2 ^ 128
          = 2 ^ (nbits - (54 - 1)) * (CL % 2 ^ (128 - (nbits - (54 - 1)))) := by
        rw [Nat.shiftLeft_eq, ← e128b, mul_comm CL, Nat.mul_mod_mul_left]
      have hSL2 : 2 ^ (nbits - (54 - 1)) * (CL % 2 ^ (128 - (nbits - (54 - 1)))) < 2 ^ 128 := by
        have hm : CL % 2 ^ (128 - (nbits - (54 - 1))) < 2 ^ (128 - (nbits - (54 - 1))) :=
          Nat.mod_lt _ (Nat.two_pow_pos _)
        calc 2 ^ (nbits - (54 - 1)) * (CL % 2 ^ (128 - (nbits - (54 - 1))))
            < 2 ^ (nbits - (54 - 1)) * 2 ^ (128 - (nbits - (54 - 1))) :=
              (Nat.mul_lt_mul_left (Nat.two_pow_pos _)).mpr hm
          _ = 2 ^ 128 := e128b
      have hSval2 : (2 ^ (nbits - (54 - 1)) * CH + CL / 2 ^ (128 - (nbits - (54 - 1)))) * 2 ^ 128
          + 2 ^ (nbits - (54 - 1)) * (CL % 2 ^ (128 - (nbits - (54 - 1))))
          = N * 2 ^ (nbits + 1) / 2 ^ 54 := by
        have hr2 : N * 2 ^ (nbits + 1) / 2 ^ 54 = N * 2 ^ (nbits - (54 - 1)) := by
          rw [show nbits + 1 = (nbits - (54 - 1)) + 54 from by omega, pow_add, ← mul_assoc]
          exact Nat.mul_div_cancel _ (Nat.two_pow_pos _)
        rw [hr2, ← hcomb]
        conv_rhs => rw [← Nat.div_add_mod CL (2 ^ (128 - (nbits - (54 - 1))))]
        rw [← e128b]
        ring
      rw [hor2, hSLmod]
      exact dec27_27_tail N nbits
        (2 ^ (nbits - (54 - 1)) * CH + CL / 2 ^ (128 - (nbits - (54 - 1))))
        (2 ^ (nbits - (54 - 1)) * (CL % 2 ^ (128 - (nbits - (54 - 1))))) hn hN hSval2 hSL2
    · rw [if_neg hb2]
      have heq : nbits = 53 := by omega
      subst heq
      have hS3 : CH * 2 ^ 128 + CL = N * 2 ^ (53 + 1) / 2 ^ 54 := by omega
      exact dec27_27_tail N 53 CH CL hn hN hS3 hCL

theorem get_frac128_dec_trunc (s t : List Char) (nbits : Nat) (h : s.length = 54) :
    get_frac128_dec (s ++ t) nbits = get_frac128_dec s nbits := by
  have hlen : (s ++ t).length = 54 + t.length := by simp [h]
  rw [get_frac128_dec, get_frac128_dec, if_neg (by omega), if_neg (by omega)]
  have h1 : (s ++ t).take 27 = s.take 27 := by
    rw [List.take_append_eq_append_take, show 27 - s.length = 0 from by omega,
      List.take_zero, List.append_nil]
  have h2 : (s ++ t).drop 27 = s.drop 27 ++ t := by
    rw [List.drop_append_eq_append_drop, show 27 - s.length = 0 from by omega,
      List.drop_zero]
  have h3 : min (s ++ t).length 54 = 54 := by omega
  have h4 : min s.length 54 = 54 := by omega
  have h5 : (s.drop 27 ++ t).take (54 - 27) = (s.drop 27).take (54 - 27) := by
    rw [List.take_append_eq_append_take,
      show 54 - 27 - (s.drop 27).length = 0 from by simp [h], List.take_zero,
      List.append_nil]
  rw [h1, h2, h3, h4]
  simp only [h5]

theorem dec_subhalf_bound (W d len nbits w : Nat) (hWd : 2 * 2 ^ W < 10 ^ d)
    (hdl : d ≤ len) (hnW : nbits ≤ W) (hw : w < 10 ^ (len - d)) :
    2 * (w * 2 ^ nbits) < 10 ^ len := by
  have h1 : 2 ^ nbits ≤ 2 ^ W := Nat.pow_le_pow_right (by norm_num) hnW
  have h2 : 2 * (w * 2 ^ nbits) ≤ 2 * (w * 2 ^ W) := by
    have := Nat.mul_le_mul_left w h1
    omega
  have h3 : w * 2 ^ W < 10 ^ (len - d) * 2 ^ W :=
    (Nat.mul_lt_mul_right (Nat.two_pow_pos _)).mpr hw
  have h6 : 2 * 2 ^ W * 10 ^ (len - d) ≤ (10 ^ d - 1) * 10 ^ (len - d) :=
    Nat.mul_le_mul_right _ (by omega)
  have h7 : (10 ^ d - 1) * 10 ^ (len - d) = 10 ^ d * 10 ^ (len - d) - 10 ^ (len - d) := by
    rw [Nat.sub_mul, one_mul]
  have h5 : 10 ^ d * 10 ^ (len - d) = 10 ^ len := by
    rw [← pow_add]
    congr 1
    omega
  have h8 : 0 < 10 ^ (len - d) := Nat.pos_pow_of_pos _ (by norm_num)
  have h9 : 10 ^ (len - d) * 2 ^ W = 2 ^ W * 10 ^ (len - d) := Nat.mul_comm _ _
  have h10 : 2 * 2 ^ W * 10 ^ (len - d) = 2 * (2 ^ W * 10 ^ (len - d)) := by ring
  omega

/-- C5: `dec27_27_to_bin128` on 54 nines with a 128-bit budget reports
carry-to-whole (`none`); on 27 nines followed by 27 zeros it returns exactly
340282366920938463463374607091485844535, which equals the half-up rounding of
`2^128 · (10^27 − 1) / 10^27` computed by exact arbitrary-precision
arithmetic. -/
theorem dec27_27_extremes :
    dec27_27_to_bin128 (10 ^ 27 - 1) (10 ^ 27 - 1) 128 = none ∧
    dec27_27_to_bin128 (10 ^ 27 - 1) 0 128 =
      some 340282366920938463463374607091485844535 ∧
    roundHalfUp ((10 ^ 27 - 1) * 2 ^ 128) (10 ^ 27) =
      340282366920938463463374607091485844535 := by
  exact ⟨by decide, by decide, by decide⟩

/-- C2 counterexample: the fraction span `"0254"` (frac_nbits = 8) parses to
bit pattern 6, but the half-up rounding of the exact fractional value
`0.0254 · 2^8` is 7 — a truncated fourth digit does change the rounded
result. -/
theorem dec_truncation_counterexample :
    from_str_u8 "0.0254".toList 10 0 8 = .ok 6 ∧
    get_frac8_dec "0254".toList 8 = some 6 ∧
    roundHalfUp (254 * 2 ^ 8) (10 ^ 4) = 7 := by
  exact ⟨by decide, by decide, by decide⟩

/-- C2 (amended): at every working width, decimal digits of a fraction span
beyond the per-width digit count (3 digits for the 8-bit width, 6 for 16-bit,
13 for 32-bit, 27 for 64-bit, 54 — two 27-digit groups — for 128-bit) are
truncated without being read, and the parsed fraction bits equal the half-up
rounding of the *truncated* fractional value scaled by `2^frac_nbits`; the
truncated digits contribute less than half the rounding unit to the scaled
exact value (`2·2^W < 10^d` at each width pair), but, per the counterexample,
they may still move the half-up rounded result by one. -/
theorem dec_truncation_amended :
    (∀ (s t : List Char) (nbits : Nat), s.length = 3 →
      get_frac8_dec (s ++ t) nbits = get_frac8_dec s nbits) ∧
    (∀ (s t : List Char) (nbits : Nat), s.length = 6 →
      get_frac16_dec (s ++ t) nbits = get_frac16_dec s nbits) ∧
    (∀ (s t : List Char) (nbits : Nat), s.length = 13 →
      get_frac32_dec (s ++ t) nbits = get_frac32_dec s nbits) ∧
    (∀ (s t : List Char) (nbits : Nat), s.length = 27 →
      get_frac64_dec (s ++ t) nbits = get_frac64_dec s nbits) ∧
    (∀ (s t : List Char) (nbits : Nat), s.length = 54 →
      get_frac128_dec (s ++ t) nbits = get_frac128_dec s nbits) ∧
    (∀ v nbits, v < 10 ^ 3 → nbits ≤ 8 →
      dec3_to_bin8 v nbits =
        if roundHalfUp (v * 2 ^ nbits) (10 ^ 3) < 2 ^ nbits
        then some (roundHalfUp (v * 2 ^ nbits) (10 ^ 3)) else none) ∧
    (∀ v nbits, v < 10 ^ 6 → nbits ≤ 16 →
      dec6_to_bin16 v nbits =
        if roundHalfUp (v * 2 ^ nbits) (10 ^ 6) < 2 ^ nbits
        then some (roundHalfUp (v * 2 ^ nbits) (10 ^ 6)) else none) ∧
    (∀ v nbits, v < 10 ^ 13 → nbits ≤ 32 →
      dec13_to_bin32 v nbits =
        if roundHalfUp (v * 2 ^ nbits) (10 ^ 13) < 2 ^ nbits
        then some (roundHalfUp (v * 2 ^ nbits) (10 ^ 13)) else none) ∧
    (∀ v nbits, v < 10 ^ 27 → nbits ≤ 64 →
      dec27_to_bin64 v nbits =
        if roundHalfUp (v * 2 ^ nbits) (10 ^ 27) < 2 ^ nbits
        then some (roundHalfUp (v * 2 ^ nbits) (10 ^ 27)) else none) ∧
    (∀ hi lo nbits, hi < 10 ^ 27 → lo < 10 ^ 27 → nbits ≤ 128 →
      dec27_27_to_bin128 hi lo nbits =
        if roundHalfUp ((hi * 10 ^ 27 + lo) * 2 ^ nbits) (10 ^ 54) < 2 ^ nbits
        then some (roundHalfUp ((hi * 10 ^ 27 + lo) * 2 ^ nbits) (10 ^ 54)) else none) ∧
    (∀ W d len nbits w, 2 * 2 ^ W < 10 ^ d → d ≤ len → nbits ≤ W →
      w < 10 ^ (len - d) → 2 * (w * 2 ^ nbits) < 10 ^ len) ∧
    (2 * 2 ^ 8 < 10 ^ 3 ∧ 2 * 2 ^ 16 < 10 ^ 6 ∧ 2 * 2 ^ 32 < 10 ^ 13 ∧
      2 * 2 ^ 64 < 10 ^ 27 ∧ 2 * 2 ^ 128 < 10 ^ 54) := by
  refine ⟨?_, ?_, ?_, ?_,
    fun s t nbits h => get_frac128_dec_trunc s t nbits h,
    fun v nbits hv hn => dec3_round v nbits hv hn,
    fun v nbits hv hn => dec6_round v nbits hv hn,
    fun v nbits hv hn => dec13_round v nbits hv hn,
    fun v nbits hv hn => dec27_round v nbits hv hn,
    fun hi lo nbits hhi hlo hn => dec27_27_round hi lo nbits hhi hlo hn,
    fun W d len nbits w h1 h2 h3 h4 => dec_subhalf_bound W d len nbits w h1 h2 h3 h4,
    by norm_num, by norm_num, by norm_num, by norm_num, by norm_num⟩
  · intro s t nbits h
    rw [get_frac8_dec, get_frac8_dec]
    have hlen : (s ++ t).length = 3 + t.length := by simp [h]
    have hmin : min (s ++ t).length 3 = 3 := by omega
    have hmin2 : min s.length 3 = 3 := by omega
    rw [hmin, hmin2, List.take_append_eq_append_take, h]
    simp
  · intro s t nbits h
    rw [get_frac16_dec, get_frac16_dec]
    have hlen : (s ++ t).length = 6 + t.length := by simp [h]
    have hmin : min (s ++ t).length 6 = 6 := by omega
    have hmin2 : min s.length 6 = 6 := by omega
    rw [hmin, hmin2, List.take_append_eq_append_take, h]
    simp
  · intro s t nbits h
    rw [get_frac32_dec, get_frac32_dec]
    have hlen : (s ++ t).length = 13 + t.length := by simp [h]
    have hmin : min (s ++ t).length 13 = 13 := by omega
    have hmin2 : min s.length 13 = 13 := by omega
    rw [hmin, hmin2, List.take_append_eq_append_take, h]
    simp
  · intro s t nbits h
    rw [get_frac64_dec, get_frac64_dec]
    have hlen : (s ++ t).length = 27 + t.length := by simp [h]
    have hmin : min (s ++ t).length 27 = 27 := by omega
    have hmin2 : min s.length 27 = 27 := by omega
    rw [hmin, hmin2, List.take_append_eq_append_take, h]
    simp

/-- C7: lexical errors (`InvalidDigit`, `NoDigits`, `TooManyPoints`) are the
only errors `parse_bounds` produces, and the entry points return them as-is
before attempting any numeric conversion, so a lexical error always beats the
`Overflow` the digit spans would otherwise have produced (e.g. `"1.2.3"` on a
layout where `"1.2"` overflows). -/
theorem lexical_errors_first :
    (∀ (s : List Char) (cbn : Bool) (radix : Nat) (e : ParseErrorKind),
      parse_bounds s cbn radix = .err e →
      e = .InvalidDigit ∨ e = .NoDigits ∨ e = .TooManyPoints) ∧
    (∀ (s : List Char) (radix i f : Nat) (e : ParseErrorKind),
      parse_bounds s false radix = .err e → from_str_u8 s radix i f = .err e) ∧
    (∀ (s : List Char) (radix i f : Nat) (e : ParseErrorKind),
      parse_bounds s true radix = .err e → from_str_i8 s radix i f = .err e) ∧
    from_str_u8 "1.2.3".toList 10 0 8 = .err .TooManyPoints ∧
    from_str_u8 "1.2".toList 10 0 8 = .err .Overflow := by
  refine ⟨?_, ?_, ?_, by decide, by decide⟩
  · intro s cbn radix e h
    exact parse_bounds_err_lexical h
  · intro s radix i f e h
    rw [from_str_u8, h]
  · intro s radix i f e h
    rw [from_str_i8, h]

/-- C10: a `'-'` sign followed only by zero digits parses to the all-zero bit
pattern on signed layouts (zero magnitude passes the negative range check and
negates to zero), for every supported radix and any split of the 8 bits, while
the same literal is rejected as `InvalidDigit` on unsigned layouts. -/
theorem minus_zero_ok_signed :
    (∀ radix : Nat, radix = 2 ∨ radix = 8 ∨ radix = 10 ∨ radix = 16 →
      ∀ int_nbits frac_nbits : Nat,
        from_str_i8 "-0".toList radix int_nbits frac_nbits = .ok 0 ∧
        from_str_u8 "-0".toList radix int_nbits frac_nbits = .err .InvalidDigit) ∧
    from_str_i8 "-0.0".toList 10 4 4 = .ok 0 ∧
    from_str_i8 "-.000".toList 10 4 4 = .ok 0 ∧
    from_str_i16 "-0".toList 10 8 8 = .ok 0 := by
  refine ⟨?_, by decide, by decide, by decide⟩
  intro radix hr int_nbits frac_nbits
  have key : ∀ r : Nat, parse_bounds "-0".toList true r = .ok ⟨true, [], []⟩ →
      from_str_i8 "-0".toList r int_nbits frac_nbits = .ok 0 := by
    intro r hp
    rw [from_str_i8, hp]
    simp [get_frac8, gfBody, get_int8, giBody]
  rcases hr with rfl | rfl | rfl | rfl <;> exact ⟨key _ (by decide), rfl⟩

/-- C4: when the fraction span rounds up to one full unit (the `$frac` getter
reports carry as `none`), the unsigned entry point converts the integer span
with `whole_frac = true` — which adds one before the width check — and returns
the incremented integer bits united with all-zero fraction bits, or `Overflow`
when the increment no longer fits (including the empty-integer case). -/
theorem carry_to_whole_u8 :
    (∀ (s : List Char) (radix int_nbits frac_nbits : Nat) (p : ParseSpans),
      parse_bounds s false radix = .ok p →
      get_frac8 p.frac radix frac_nbits = none →
      from_str_u8 s radix int_nbits frac_nbits =
        match get_int8 p.int radix int_nbits true with
        | some v => .ok (v ||| 0)
        | none => .err .Overflow) ∧
    (∀ radix nbits : Nat, get_int8 [] radix nbits true = none) ∧
    from_str_u8 "127.5".toList 10 8 0 = .ok 0x80 ∧
    from_str_u8 "7.97".toList 10 4 4 = .ok 0x80 ∧
    from_str_u8 "15.97".toList 10 4 4 = .err .Overflow ∧
    from_str_u8 "255.5".toList 10 8 0 = .err .Overflow ∧
    from_str_u8 "0.999".toList 10 0 8 = .err .Overflow := by
  refine ⟨?_, fun radix nbits => rfl, by decide, by decide, by decide, by decide,
    by decide⟩
  intro s radix int_nbits frac_nbits p hp hf
  rw [from_str_u8, hp]
  simp only [hf]

/-- C8: a single leading `'+'` is accepted on every layout, unsigned included
(`"+5"` parses successfully), while a leading `'-'` on an unsigned layout, any
second sign (whether `'+'` or `'-'`, following either a `'+'` or an accepted
`'-'`), and either sign `'+'`/`'-'` appearing after the radix point or after
any digit are all `InvalidDigit` (e.g. both `"1+2"` and `"1-2"`). -/
theorem plus_sign_always_legal :
    from_str_u8 "+5".toList 10 4 4 = .ok 0x50 ∧
    from_str_i8 "+5".toList 10 4 4 = .ok 0x50 ∧
    (∀ (s : List Char) (radix : Nat),
      parse_bounds ('-' :: s) false radix = .err .InvalidDigit) ∧
    (∀ (s : List Char) (radix : Nat) (cbn : Bool),
      parse_bounds ('+' :: '+' :: s) cbn radix = .err .InvalidDigit) ∧
    (∀ (s : List Char) (radix : Nat) (cbn : Bool),
      parse_bounds ('+' :: '-' :: s) cbn radix = .err .InvalidDigit) ∧
    (∀ (s : List Char) (radix : Nat),
      parse_bounds ('-' :: '+' :: s) true radix = .err .InvalidDigit) ∧
    (∀ (s : List Char) (radix : Nat),
      parse_bounds ('-' :: '-' :: s) true radix = .err .InvalidDigit) ∧
    (∀ (s : List Char) (radix : Nat) (cbn : Bool),
      parse_bounds ('.' :: '+' :: s) cbn radix = .err .InvalidDigit) ∧
    (∀ (s : List Char) (radix : Nat) (cbn : Bool),
      parse_bounds ('.' :: '-' :: s) cbn radix = .err .InvalidDigit) ∧
    (∀ (s : List Char) (radix : Nat) (cbn : Bool) (c : Char),
      isRadixDigit radix c = true →
      parse_bounds (c :: '+' :: s) cbn radix = .err .InvalidDigit) ∧
    (∀ (s : List Char) (radix : Nat) (cbn : Bool) (c : Char),
      isRadixDigit radix c = true →
      parse_bounds (c :: '-' :: s) cbn radix = .err .InvalidDigit) ∧
    from_str_u8 "1+2".toList 10 4 4 = .err .InvalidDigit ∧
    from_str_i8 "1-2".toList 10 4 4 = .err .InvalidDigit := by
  refine ⟨by decide, by decide, fun s radix => rfl, fun s radix cbn => rfl, ?_,
    fun s radix => rfl, fun s radix => rfl, ?_, ?_, ?_, ?_, by decide, by decide⟩
  · intro s radix cbn
    cases cbn <;> rfl
  · intro s radix cbn
    rfl
  · intro s radix cbn
    cases cbn <;> rfl
  · intro s radix cbn c hc
    rw [parse_bounds, pbGo, if_neg (isRadixDigit_ne_plus hc),
      if_neg (isRadixDigit_ne_minus hc), if_neg (isRadixDigit_ne_point hc),
      if_pos hc, pbGo]
    rfl
  · intro s radix cbn c hc
    cases cbn <;>
      (rw [parse_bounds, pbGo, if_neg (isRadixDigit_ne_plus hc),
        if_neg (isRadixDigit_ne_minus hc), if_neg (isRadixDigit_ne_point hc),
        if_pos hc, pbGo]; rfl)

theorem bin_frac_go_discard {w nbits : Nat} :
    ∀ (s : List Char) (c : Char) (t : List Char) (acc rem : Nat),
      rem < s.length + 1 →
      bin_frac_go w nbits (s ++ c :: t) acc rem = bin_frac_go w nbits (s ++ [c]) acc rem := by
  intro s
  induction s with
  | nil =>
    intro c t acc rem h
    have h0 : rem < 1 := by simpa using h
    simp only [List.nil_append, bin_frac_go, if_pos h0]
  | cons d s' ih =>
    intro c t acc rem h
    simp only [List.cons_append, bin_frac_go]
    by_cases h1 : rem < 1
    · rw [if_pos h1, if_pos h1]
    · rw [if_neg h1, if_neg h1]
      exact ih c t _ _ (by simp only [List.length_cons] at h; omega)

theorem oct_frac_go_discard {w nbits : Nat} :
    ∀ (s : List Char) (c : Char) (t : List Char) (acc rem : Nat),
      rem < 3 * (s.length + 1) →
      oct_frac_go w nbits (s ++ c :: t) acc rem = oct_frac_go w nbits (s ++ [c]) acc rem := by
  intro s
  induction s with
  | nil =>
    intro c t acc rem h
    have h0 : rem < 3 := by simpa using h
    simp only [List.nil_append, oct_frac_go, if_pos h0]
  | cons d s' ih =>
    intro c t acc rem h
    simp only [List.cons_append, oct_frac_go]
    by_cases h1 : rem < 3
    · rw [if_pos h1, if_pos h1]
    · rw [if_neg h1, if_neg h1]
      exact ih c t _ _ (by simp only [List.length_cons] at h; omega)

theorem hex_frac_go_discard {w nbits : Nat} :
    ∀ (s : List Char) (c : Char) (t : List Char) (acc rem : Nat),
      rem < 4 * (s.length + 1) →
      hex_frac_go w nbits (s ++ c :: t) acc rem = hex_frac_go w nbits (s ++ [c]) acc rem := by
  intro s
  induction s with
  | nil =>
    intro c t acc rem h
    have h0 : rem < 4 := by simpa using h
    simp only [List.nil_append, hex_frac_go, if_pos h0]
  | cons d s' ih =>
    intro c t acc rem h
    simp only [List.cons_append, hex_frac_go]
    by_cases h1 : rem < 4
    · rw [if_pos h1, if_pos h1]
    · rw [if_neg h1, if_neg h1]
      exact ih c t _ _ (by simp only [List.length_cons] at h; omega)

/-- C3: the signed assembly computes the unsigned magnitude independent of the
sign and accepts exactly when it is at most `2^(W−1)` for a negative literal
and `2^(W−1) − 1` for a non-negative one, two's-complement negating on
success; concretely on the signed 0-integer-bit 8-fraction-bit layout,
`"-0.501"` is accepted as magnitude 0x80, `"-0.502"` overflows, `"0.498"`
gives 0x7F and `"0.499"` overflows. -/
theorem signed_range_asymmetry :
    (∀ (s : List Char) (radix int_nbits frac_nbits : Nat) (p : ParseSpans) (a : Nat),
      parse_bounds s true radix = .ok p →
      signed_abs8 p radix int_nbits frac_nbits = some a →
      from_str_i8 s radix int_nbits frac_nbits =
        if a ≤ (if p.neg then 2 ^ (8 - 1) else 2 ^ (8 - 1) - 1)
        then .ok (if p.neg then (2 ^ 8 - a) % 2 ^ 8 else a)
        else .err .Overflow) ∧
    from_str_i8 "-0.501".toList 10 0 8 = .ok 0x80 ∧
    from_str_i8 "-0.502".toList 10 0 8 = .err .Overflow ∧
    from_str_i8 "0.498".toList 10 0 8 = .ok 0x7F ∧
    from_str_i8 "0.499".toList 10 0 8 = .err .Overflow := by
  refine ⟨?_, by decide, by decide, by decide, by decide⟩
  intro s radix int_nbits frac_nbits p a hp ha
  rw [from_str_i8, hp]
  rw [signed_abs8] at ha
  cases hf : get_frac8 p.frac radix frac_nbits with
  | some f =>
    simp only [hf] at ha
    cases hi : get_int8 p.int radix int_nbits false with
    | none => simp [hi] at ha
    | some abs_int =>
      simp [hi] at ha
      subst ha
      simp only [hf, hi]
      rcases le_or_lt (abs_int ||| f) (if p.neg then 2 ^ (8 - 1) else 2 ^ (8 - 1) - 1)
        with hle | hlt
      · rw [if_neg (Nat.not_lt.mpr hle), if_pos hle]
      · rw [if_pos hlt, if_neg (Nat.not_le.mpr hlt)]
  | none =>
    simp only [hf] at ha
    cases hi : get_int8 p.int radix int_nbits true with
    | none => simp [hi] at ha
    | some abs_int =>
      simp [hi] at ha
      subst ha
      simp only [hf, hi, Nat.or_zero]
      rcases le_or_lt abs_int (if p.neg then 2 ^ (8 - 1) else 2 ^ (8 - 1) - 1)
        with hle | hlt
      · rw [if_neg (Nat.not_lt.mpr hle), if_pos hle]
      · rw [if_pos hlt, if_neg (Nat.not_le.mpr hlt)]

/-- C6: for radices 2, 8 and 16 the fraction converters consume whole digits
until the bit budget is exhausted, round half-up on the single bit at the
cutoff boundary, and never read the digits past it (formally: once the cutoff
falls inside or at digit `c`, every digit after `c` is irrelevant); concretely
on the 0-integer-bit 16-fraction-bit unsigned layout, binary
`"0.011111111111111101"` and hex `"0.7FFF7"` both parse to 0x7FFF and the next
representable strings parse to 0x8000 (octal likewise). -/
theorem pow2_frac_cutoff_rounding :
    (∀ (w nbits : Nat) (s : List Char) (c : Char) (t : List Char),
      nbits < s.length + 1 →
      bin_str_frac_to_bin w (s ++ c :: t) nbits = bin_str_frac_to_bin w (s ++ [c]) nbits) ∧
    (∀ (w nbits : Nat) (s : List Char) (c : Char) (t : List Char),
      nbits < 3 * (s.length + 1) →
      oct_str_frac_to_bin w (s ++ c :: t) nbits = oct_str_frac_to_bin w (s ++ [c]) nbits) ∧
    (∀ (w nbits : Nat) (s : List Char) (c : Char) (t : List Char),
      nbits < 4 * (s.length + 1) →
      hex_str_frac_to_bin w (s ++ c :: t) nbits = hex_str_frac_to_bin w (s ++ [c]) nbits) ∧
    from_str_u16 "0.011111111111111101".toList 2 0 16 = .ok 0x7FFF ∧
    from_str_u16 "0.011111111111111110".toList 2 0 16 = .ok 0x8000 ∧
    from_str_u16 "0.7FFF7".toList 16 0 16 = .ok 0x7FFF ∧
    from_str_u16 "0.7FFF8".toList 16 0 16 = .ok 0x8000 ∧
    from_str_u16 "0.377775".toList 8 0 16 = .ok 0x7FFF ∧
    from_str_u16 "0.377776".toList 8 0 16 = .ok 0x8000 := by
  refine ⟨?_, ?_, ?_, by decide, by decide, by decide, by decide, by decide, by decide⟩
  · intro w nbits s c t h
    exact bin_frac_go_discard s c t 0 nbits h
  · intro w nbits s c t h
    exact oct_frac_go_discard s c t 0 nbits h
  · intro w nbits s c t h
    exact hex_frac_go_discard s c t 0 nbits h

theorem dval_le_of_bin {c : Char} (h : isRadixDigit 2 c = true) : dval c ≤ 1 := by
  simp only [isRadixDigit, decide_eq_true_eq] at h
  rcases h with ⟨_, h1, h2⟩ | ⟨h, _⟩ | ⟨h, _⟩ | ⟨h, _⟩ <;> first
    | (rw [dval]; omega)
    | omega

theorem dval_le_of_oct {c : Char} (h : isRadixDigit 8 c = true) : dval c ≤ 7 := by
  simp only [isRadixDigit, decide_eq_true_eq] at h
  rcases h with ⟨h, _⟩ | ⟨_, h1, h2⟩ | ⟨h, _⟩ | ⟨h, _⟩ <;> first
    | (rw [dval]; omega)
    | omega

theorem hexval_le {c : Char} (h : isRadixDigit 16 c = true) :
    unchecked_hex_digit c ≤ 15 := by
  simp only [isRadixDigit, decide_eq_true_eq] at h
  have hmod : c.toNat &&& 15 = c.toNat % 16 := by
    have h4 := Nat.and_pow_two_sub_one_eq_mod c.toNat 4
    norm_num at h4
    exact h4
  rw [unchecked_hex_digit, hmod]
  rcases h with ⟨h, _⟩ | ⟨h, _⟩ | ⟨h, _⟩ | ⟨_, h1 | h1 | h1⟩ <;>
    first
      | omega
      | (split_ifs with hge <;> omega)

theorem bin_frac_go_lt {w nbits : Nat} (hnw : nbits ≤ w) :
    ∀ (s : List Char) (acc rem v : Nat),
      (∀ c ∈ s, isRadixDigit 2 c = true) →
      rem ≤ nbits → acc < 2 ^ (nbits - rem) →
      bin_frac_go w nbits s acc rem = some v → v < 2 ^ nbits := by
  intro s
  induction s with
  | nil =>
    intro acc rem v _ hrem hacc h
    rw [bin_frac_go] at h
    injection h with h
    subst h
    have hmul : acc * 2 ^ rem < 2 ^ nbits := by
      calc acc * 2 ^ rem < 2 ^ (nbits - rem) * 2 ^ rem :=
            (Nat.mul_lt_mul_right (Nat.two_pow_pos rem)).mpr hacc
        _ = 2 ^ nbits := by rw [← pow_add]; congr 1; omega
    rw [Nat.shiftLeft_eq]
    exact lt_of_le_of_lt (Nat.mod_le _ _) hmul
  | cons c rest ih =>
    intro acc rem v hdig hrem hacc h
    rw [bin_frac_go] at h
    by_cases h1 : rem < 1
    · rw [if_pos h1] at h
      cases hca : checked_add w acc (dval c) with
      | none => rw [hca] at h; cases h
      | some acc' =>
        simp only [hca] at h
        have hca' : acc + dval c < 2 ^ w ∧ acc' = acc + dval c := by
          rw [checked_add] at hca
          split at hca
          · exact ⟨by assumption, (Option.some.inj hca).symm⟩
          · cases hca
        by_cases h2 : w - nbits ≠ 0 ∧ acc' >>> nbits ≠ 0
        · rw [if_pos h2] at h; cases h
        · rw [if_neg h2] at h
          injection h with h
          subst h
          by_cases h3 : w - nbits = 0
          · have hw : w = nbits := by omega
            subst hw
            omega
          · have h4 : acc' >>> nbits = 0 := by
              by_contra h5
              exact h2 ⟨h3, h5⟩
            rw [Nat.shiftRight_eq_div_pow] at h4
            exact (Nat.div_eq_zero_iff (Nat.two_pow_pos nbits)).mp h4
    · rw [if_neg h1] at h
      have hv : dval c ≤ 1 := dval_le_of_bin (hdig c (List.mem_cons_self c rest))
      have hrest : ∀ x ∈ rest, isRadixDigit 2 x = true := fun x hx =>
        hdig x (List.mem_cons_of_mem c hx)
      refine ih _ _ v hrest (by omega) ?_ h
      have hstep : (acc <<< 1) % 2 ^ w + dval c < 2 ^ (nbits - rem + 1) := by
        have hmle : (acc <<< 1) % 2 ^ w ≤ acc * 2 := by
          rw [Nat.shiftLeft_eq, pow_one]
          exact Nat.mod_le _ _
        have hpow : 2 ^ (nbits - rem + 1) = 2 ^ (nbits - rem) * 2 := pow_succ 2 _
        omega
      have heq : nbits - (rem - 1) = nbits - rem + 1 := by omega
      rw [heq]
      exact hstep

theorem oct_frac_go_lt {w nbits : Nat} (hnw : nbits ≤ w) :
    ∀ (s : List Char) (acc rem v : Nat),
      (∀ c ∈ s, isRadixDigit 8 c = true) →
      rem ≤ nbits → acc < 2 ^ (nbits - rem) →
      oct_frac_go w nbits s acc rem = some v → v < 2 ^ nbits := by
  intro s
  induction s with
  | nil =>
    intro acc rem v _ hrem hacc h
    rw [oct_frac_go] at h
    injection h with h
    subst h
    have hmul : acc * 2 ^ rem < 2 ^ nbits := by
      calc acc * 2 ^ rem < 2 ^ (nbits - rem) * 2 ^ rem :=
            (Nat.mul_lt_mul_right (Nat.two_pow_pos rem)).mpr hacc
        _ = 2 ^ nbits := by rw [← pow_add]; congr 1; omega
    rw [Nat.shiftLeft_eq]
    exact lt_of_le_of_lt (Nat.mod_le _ _) hmul
  | cons c rest ih =>
    intro acc rem v hdig hrem hacc h
    simp only [oct_frac_go] at h
    by_cases h1 : rem < 3
    · rw [if_pos h1] at h
      cases hca : checked_add w ((acc <<< rem) % 2 ^ w + dval c >>> (3 - rem))
          ((dval c >>> (2 - rem)) &&& 1) with
      | none => rw [hca] at h; cases h
      | some acc' =>
        simp only [hca] at h
        have hca' : acc' < 2 ^ w := by
          rw [checked_add] at hca
          split at hca
          · have := Option.some.inj hca
            omega
          · cases hca
        by_cases h2 : w - nbits ≠ 0 ∧ acc' >>> nbits ≠ 0
        · rw [if_pos h2] at h; cases h
        · rw [if_neg h2] at h
          injection h with h
          subst h
          by_cases h3 : w - nbits = 0
          · have hw : w = nbits := by omega
            subst hw
            omega
          · have h4 : acc' >>> nbits = 0 := by
              by_contra h5
              exact h2 ⟨h3, h5⟩
            rw [Nat.shiftRight_eq_div_pow] at h4
            exact (Nat.div_eq_zero_iff (Nat.two_pow_pos nbits)).mp h4
    · rw [if_neg h1] at h
      have hv : dval c ≤ 7 := dval_le_of_oct (hdig c (List.mem_cons_self c rest))
      have hrest : ∀ x ∈ rest, isRadixDigit 8 x = true := fun x hx =>
        hdig x (List.mem_cons_of_mem c hx)
      refine ih _ _ v hrest (by omega) ?_ h
      have hstep : (acc <<< 3) % 2 ^ w + dval c < 2 ^ (nbits - rem + 3) := by
        have hmle : (acc <<< 3) % 2 ^ w ≤ acc * 8 := by
          rw [Nat.shiftLeft_eq]
          exact Nat.mod_le _ _
        have hpow : 2 ^ (nbits - rem + 3) = 2 ^ (nbits - rem) * 8 := by
          rw [pow_add]
          norm_num
        omega
      have heq : nbits - (rem - 3) = nbits - rem + 3 := by omega
      rw [heq]
      exact hstep

theorem hex_frac_go_lt {w nbits : Nat} (hnw : nbits ≤ w) :
    ∀ (s : List Char) (acc rem v : Nat),
      (∀ c ∈ s, isRadixDigit 16 c = true) →
      rem ≤ nbits → acc < 2 ^ (nbits - rem) →
      hex_frac_go w nbits s acc rem = some v → v < 2 ^ nbits := by
  intro s
  induction s with
  | nil =>
    intro acc rem v _ hrem hacc h
    rw [hex_frac_go] at h
    injection h with h
    subst h
    have hmul : acc * 2 ^ rem < 2 ^ nbits := by
      calc acc * 2 ^ rem < 2 ^ (nbits - rem) * 2 ^ rem :=
            (Nat.mul_lt_mul_right (Nat.two_pow_pos rem)).mpr hacc
        _ = 2 ^ nbits := by rw [← pow_add]; congr 1; omega
    rw [Nat.shiftLeft_eq]
    exact lt_of_le_of_lt (Nat.mod_le _ _) hmul
  | cons c rest ih =>
    intro acc rem v hdig hrem hacc h
    simp only [hex_frac_go] at h
    by_cases h1 : rem < 4
    · rw [if_pos h1] at h
      cases hca : checked_add w
          ((acc <<< rem) % 2 ^ w + unchecked_hex_digit c >>> (4 - rem))
          ((unchecked_hex_digit c >>> (3 - rem)) &&& 1) with
      | none => rw [hca] at h; cases h
      | some acc' =>
        simp only [hca] at h
        have hca' : acc' < 2 ^ w := by
          rw [checked_add] at hca
          split at hca
          · have := Option.some.inj hca
            omega
          · cases hca
        by_cases h2 : w - nbits ≠ 0 ∧ acc' >>> nbits ≠ 0
        · rw [if_pos h2] at h; cases h
        · rw [if_neg h2] at h
          injection h with h
          subst h
          by_cases h3 : w - nbits = 0
          · have hw : w = nbits := by omega
            subst hw
            omega
          · have h4 : acc' >>> nbits = 0 := by
              by_contra h5
              exact h2 ⟨h3, h5⟩
            rw [Nat.shiftRight_eq_div_pow] at h4
            exact (Nat.div_eq_zero_iff (Nat.two_pow_pos nbits)).mp h4
    · rw [if_neg h1] at h
      have hv : unchecked_hex_digit c ≤ 15 :=
        hexval_le (hdig c (List.mem_cons_self c rest))
      have hrest : ∀ x ∈ rest, isRadixDigit 16 x = true := fun x hx =>
        hdig x (List.mem_cons_of_mem c hx)
      refine ih _ _ v hrest (by omega) ?_ h
      have hstep : (acc <<< 4) % 2 ^ w + unchecked_hex_digit c <
          2 ^ (nbits - rem + 4) := by
        have hmle : (acc <<< 4) % 2 ^ w ≤ acc * 16 := by
          rw [Nat.shiftLeft_eq]
          exact Nat.mod_le _ _
        have hpow : 2 ^ (nbits - rem + 4) = 2 ^ (nbits - rem) * 16 := by
          rw [pow_add]
          norm_num
        omega
      have heq : nbits - (rem - 4) = nbits - rem + 4 := by omega
      rw [heq]
      exact hstep

theorem dec3_to_bin8_lt {val nbits v : Nat} (h : dec3_to_bin8 val nbits = some v) :
    v < 2 ^ nbits := by
  rw [dec3_to_bin8] at h
  generalize ((val <<< (8 - 3 + 1)) % 2 ^ 16) >>> (8 - nbits) + 5 ^ 3 * 2 / 2 = round at h
  split at h
  · cases h
  · injection h with h
    subst h
    next hguard =>
      rw [Nat.shiftRight_eq_div_pow] at hguard
      have h1 : round / 2 ^ nbits < 5 ^ 3 * 2 := Nat.lt_of_not_le hguard
      have h2 : round < 5 ^ 3 * 2 * 2 ^ nbits :=
        (Nat.div_lt_iff_lt_mul (Nat.two_pow_pos nbits)).mp h1
      have h2' : round < 2 ^ nbits * (5 ^ 3 * 2) := by
        rw [Nat.mul_comm] at h2
        exact h2
      have h3 : round / (5 ^ 3 * 2) < 2 ^ nbits :=
        (Nat.div_lt_iff_lt_mul (show 0 < 5 ^ 3 * 2 by norm_num)).mpr h2'
      exact lt_of_le_of_lt (Nat.mod_le _ _) h3

theorem dec6_to_bin16_lt {val nbits v : Nat} (h : dec6_to_bin16 val nbits = some v) :
    v < 2 ^ nbits := by
  rw [dec6_to_bin16] at h
  generalize ((val <<< (16 - 6 + 1)) % 2 ^ 32) >>> (16 - nbits) + 5 ^ 6 * 2 / 2 = round at h
  split at h
  · cases h
  · injection h with h
    subst h
    next hguard =>
      rw [Nat.shiftRight_eq_div_pow] at hguard
      have h1 : round / 2 ^ nbits < 5 ^ 6 * 2 := Nat.lt_of_not_le hguard
      have h2 : round < 5 ^ 6 * 2 * 2 ^ nbits :=
        (Nat.div_lt_iff_lt_mul (Nat.two_pow_pos nbits)).mp h1
      have h2' : round < 2 ^ nbits * (5 ^ 6 * 2) := by
        rw [Nat.mul_comm] at h2
        exact h2
      have h3 : round / (5 ^ 6 * 2) < 2 ^ nbits :=
        (Nat.div_lt_iff_lt_mul (show 0 < 5 ^ 6 * 2 by norm_num)).mpr h2'
      exact lt_of_le_of_lt (Nat.mod_le _ _) h3

theorem gfBody_lt {w : Nat} {fd : List Char → Nat → Option Nat}
    (hfd : ∀ s n x, fd s n = some x → x < 2 ^ n) :
    ∀ (frac : List Char) (radix nbits b : Nat), nbits ≤ w →
      (∀ c ∈ frac, isRadixDigit radix c = true) →
      gfBody w fd frac radix nbits = some b → b < 2 ^ nbits := by
  intro frac radix nbits b hnw hdig h
  rw [gfBody] at h
  split_ifs at h with h0 hr2 hr8 hr16 hr10
  · injection h with h
    subst h
    exact Nat.two_pow_pos nbits
  · subst hr2
    exact bin_frac_go_lt hnw frac 0 nbits b hdig le_rfl (by simpa using Nat.one_pos) h
  · subst hr8
    exact oct_frac_go_lt hnw frac 0 nbits b hdig le_rfl (by simpa using Nat.one_pos) h
  · subst hr16
    exact hex_frac_go_lt hnw frac 0 nbits b hdig le_rfl (by simpa using Nat.one_pos) h
  · exact hfd frac nbits b h

theorem get_frac8_lt {frac : List Char} {radix nbits b : Nat} (hn : nbits ≤ 8)
    (hdig : ∀ c ∈ frac, isRadixDigit radix c = true)
    (h : get_frac8 frac radix nbits = some b) : b < 2 ^ nbits := by
  refine gfBody_lt ?_ frac radix nbits b hn hdig h
  intro s n x hx
  exact dec3_to_bin8_lt (by rw [get_frac8_dec] at hx; exact hx)

theorem get_frac16_lt {frac : List Char} {radix nbits b : Nat} (hn : nbits ≤ 16)
    (hdig : ∀ c ∈ frac, isRadixDigit radix c = true)
    (h : get_frac16 frac radix nbits = some b) : b < 2 ^ nbits := by
  rw [get_frac16] at h
  split at h
  · exact get_frac8_lt (by assumption) hdig h
  · refine gfBody_lt ?_ frac radix nbits b hn hdig h
    intro s n x hx
    exact dec6_to_bin16_lt (by rw [get_frac16_dec] at hx; exact hx)

theorem giBody_dvd {w : Nat} :
    ∀ (int : List Char) (radix nbits : Nat) (wf : Bool) (a : Nat),
      giBody w int radix nbits wf = some a → a % 2 ^ (w - nbits) = 0 := by
  intro int radix nbits wf a h
  rw [giBody] at h
  split at h
  · injection h with h
    subst h
    simp
  · split at h
    · cases h
    · rw [Option.bind_eq_some] at h
      obtain ⟨parsed, hpi, h⟩ := h
      rw [Option.bind_eq_some] at h
      obtain ⟨parsed', hci, h⟩ := h
      split at h
      · cases h
      · injection h with h
        subst h
        rw [Nat.shiftLeft_eq]
        have hsplit : 2 ^ w = 2 ^ (w - nbits) * 2 ^ (w - (w - nbits)) := by
          rw [← pow_add]
          congr 1
          omega
        rw [hsplit, Nat.mul_comm _ (2 ^ (w - nbits)),
          Nat.mul_mod_mul_left]
        exact Nat.mul_mod_right _ _

theorem get_int8_dvd {int : List Char} {radix nbits : Nat} {wf : Bool} {a : Nat}
    (h : get_int8 int radix nbits wf = some a) : a % 2 ^ (8 - nbits) = 0 :=
  giBody_dvd int radix nbits wf a h

theorem get_int16_dvd {int : List Char} {radix nbits : Nat} {wf : Bool} {a : Nat}
    (h : get_int16 int radix nbits wf = some a) : a % 2 ^ (16 - nbits) = 0 := by
  rw [get_int16] at h
  split at h
  · cases hx : get_int8 int radix nbits wf with
    | none => rw [hx] at h; cases h
    | some x =>
      rw [hx] at h
      simp only [Option.map_some'] at h
      injection h with h
      subst h
      obtain ⟨m, hm⟩ := Nat.dvd_of_mod_eq_zero (get_int8_dvd hx)
      subst hm
      rw [Nat.shiftLeft_eq]
      have hn8 : nbits ≤ 8 := by assumption
      have hre : 2 ^ (8 - nbits) * m * 2 ^ 8 = 2 ^ (16 - nbits) * m := by
        rw [Nat.mul_comm (2 ^ (8 - nbits)) m, Nat.mul_assoc, ← pow_add,
          Nat.mul_comm m _]
        congr 2
        omega
      rw [hre]
      have hsplit : 2 ^ 16 = 2 ^ (16 - nbits) * 2 ^ (16 - (16 - nbits)) := by
        rw [← pow_add]
        congr 1
        omega
      rw [hsplit, Nat.mul_mod_mul_left]
      exact Nat.mul_mod_right _ _
  · exact giBody_dvd int radix nbits wf a h

/-- C9: for every successful conversion the fraction bits are strictly below
`2^frac_nbits` and the integer bits have their low `frac_nbits` bits zero
(`int_nbits + frac_nbits` being the working width), so the two fields occupy
disjoint bit ranges and the final bitwise union equals the arithmetic sum —
shown for the 8-bit and the 16-bit working widths. -/
theorem disjoint_int_frac_fields :
    (∀ (int frac : List Char) (radix i f : Nat) (wf : Bool) (a b : Nat),
      i + f = 8 →
      (∀ c ∈ frac, isRadixDigit radix c = true) →
      get_int8 int radix i wf = some a →
      get_frac8 frac radix f = some b →
      b < 2 ^ f ∧ a % 2 ^ f = 0 ∧ a ||| b = a + b) ∧
    (∀ (int frac : List Char) (radix i f : Nat) (wf : Bool) (a b : Nat),
      i + f = 16 →
      (∀ c ∈ frac, isRadixDigit radix c = true) →
      get_int16 int radix i wf = some a →
      get_frac16 frac radix f = some b →
      b < 2 ^ f ∧ a % 2 ^ f = 0 ∧ a ||| b = a + b) := by
  constructor
  · intro int frac radix i f wf a b hif hdig hi hf
    have hb : b < 2 ^ f := get_frac8_lt (by omega) hdig hf
    have ha : a % 2 ^ f = 0 := by
      have := get_int8_dvd hi
      have h8 : 8 - i = f := by omega
      rwa [h8] at this
    refine ⟨hb, ha, ?_⟩
    obtain ⟨q, rfl⟩ := Nat.dvd_of_mod_eq_zero ha
    exact (Nat.mul_add_lt_is_or hb q).symm
  · intro int frac radix i f wf a b hif hdig hi hf
    have hb : b < 2 ^ f := get_frac16_lt (by omega) hdig hf
    have ha : a % 2 ^ f = 0 := by
      have := get_int16_dvd hi
      have h16 : 16 - i = f := by omega
      rwa [h16] at this
    refine ⟨hb, ha, ?_⟩
    obtain ⟨q, rfl⟩ := Nat.dvd_of_mod_eq_zero ha
    exact (Nat.mul_add_lt_is_or hb q).symm

/-! ## Lemmas towards the brute-force decimal rounding claim -/

theorem val10_foldl_init : ∀ (ys : List Char) (a : Nat),
    List.foldl (fun x c => x * 10 + dval c) a ys = a * 10 ^ ys.length + val10 ys := by
  intro ys
  induction ys with
  | nil => intro a; simp [val10]
  | cons c cs ih =>
    intro a
    rw [List.foldl_cons, ih (a * 10 + dval c)]
    have h2 : val10 (c :: cs) = dval c * 10 ^ cs.length + val10 cs := by
      rw [val10, List.foldl_cons]
      have h3 := ih (0 * 10 + dval c)
      simpa [val10] using h3
    rw [h2, List.length_cons, pow_succ]
    ring

theorem val10_append (xs ys : List Char) :
    val10 (xs ++ ys) = val10 xs * 10 ^ ys.length + val10 ys := by
  rw [val10, List.foldl_append]
  exact val10_foldl_init ys (val10 xs)

theorem val10_replicate_zero (k : Nat) : val10 (List.replicate k '0') = 0 := by
  induction k with
  | zero => rfl
  | succ n ih =>
    rw [List.replicate_succ, val10, List.foldl_cons]
    have h0 : 0 * 10 + dval '0' = 0 := rfl
    rw [h0]
    exact ih

theorem padDigits_length : ∀ (k v : Nat), (padDigits k v).length = k := by
  intro k
  induction k with
  | zero => intro v; rfl
  | succ n ih =>
    intro v
    rw [padDigits, List.length_append, ih (v / 10)]
    simp

theorem dval_digitChar : ∀ d, d < 10 → dval (digitChar d) = d := by decide

theorem digitChar_digit10 : ∀ d, d < 10 → isRadixDigit 10 (digitChar d) = true := by
  decide

theorem padDigits_digits : ∀ (k v : Nat) (c : Char),
    c ∈ padDigits k v → isRadixDigit 10 c = true := by
  intro k
  induction k with
  | zero => intro v c hc; cases hc
  | succ n ih =>
    intro v c hc
    rw [padDigits] at hc
    rcases List.mem_append.mp hc with h | h
    · exact ih (v / 10) c h
    · rw [List.mem_singleton] at h
      subst h
      exact digitChar_digit10 (v % 10) (Nat.mod_lt v (by norm_num))

theorem val10_padDigits : ∀ (k v : Nat), val10 (padDigits k v) = v % 10 ^ k := by
  intro k
  induction k with
  | zero => intro v; simp [padDigits, val10, Nat.mod_one]
  | succ n ih =>
    intro v
    rw [padDigits, val10_append]
    have h1 : val10 [digitChar (v % 10)] = v % 10 := by
      rw [val10, List.foldl_cons, List.foldl_nil]
      rw [Nat.zero_mul, Nat.zero_add]
      exact dval_digitChar (v % 10) (Nat.mod_lt v (by norm_num))
    rw [h1, ih (v / 10), List.length_singleton, pow_one]
    have h3 : (10 : Nat) ^ (n + 1) = 10 * 10 ^ n := by rw [pow_succ']
    rw [h3, Nat.mod_mul]
    omega

theorem trimLen_le : ∀ ds : List Char, trimLen ds ≤ ds.length := by
  intro ds
  induction ds with
  | nil => simp [trimLen]
  | cons c cs ih =>
    rw [trimLen]
    split_ifs with h
    · simp
    · simp only [List.length_cons]
      omega

theorem take_trimLen_append : ∀ ds : List Char,
    ds = ds.take (trimLen ds) ++ List.replicate (ds.length - trimLen ds) '0' := by
  intro ds
  induction ds with
  | nil => rfl
  | cons c cs ih =>
    rw [trimLen]
    split_ifs with h
    · obtain ⟨h0, rfl⟩ := h
      have hcs : cs = List.replicate cs.length '0' := by
        have h4 := ih
        rw [h0] at h4
        simpa using h4
      rw [List.take_zero, List.nil_append, List.length_cons, Nat.sub_zero,
        List.replicate_succ]
      exact congrArg (List.cons '0') hcs
    · rw [List.take_succ_cons, List.length_cons]
      have h5 : cs.length + 1 - (trimLen cs + 1) = cs.length - trimLen cs := by omega
      rw [h5, List.cons_append]
      exact congrArg (List.cons c) ih

theorem lneAux_eq : ∀ (ds : List Char) (i e : Nat),
    lneAux ds i e = if trimLen ds = 0 then e else i + trimLen ds := by
  intro ds
  induction ds with
  | nil => intro i e; simp [lneAux, trimLen]
  | cons c cs ih =>
    intro i e
    rw [lneAux, ih, trimLen]
    by_cases h0 : trimLen cs = 0
    · by_cases hc : c = '0'
      · subst hc
        simp [h0]
      · simp [h0, hc]
    · have h1 : ¬(trimLen cs = 0 ∧ c = '0') := fun hx => h0 hx.1
      rw [if_neg h1, if_neg h0, if_neg (show ¬(trimLen cs + 1 = 0) by omega)]
      omega

theorem pbGo_digits {radix : Nat} {cbn : Bool} :
    ∀ (ds : List Char) (index pt e : Nat) (sign : Option Bool) (tis : Option Nat),
      (∀ c ∈ ds, isRadixDigit radix c = true) →
      pbGo radix cbn ds index ⟨sign, tis, some pt, some e, true⟩ =
        .ok ⟨sign, tis, some pt, some (lneAux ds index e), true⟩ := by
  intro ds
  induction ds with
  | nil => intro index pt e sign tis _; rw [pbGo, lneAux]
  | cons c cs ih =>
    intro index pt e sign tis hdig
    have hc := hdig c (List.mem_cons_self c cs)
    have hrest : ∀ x ∈ cs, isRadixDigit radix x = true := fun x hx =>
      hdig x (List.mem_cons_of_mem c hx)
    rw [pbGo, if_neg (isRadixDigit_ne_plus hc), if_neg (isRadixDigit_ne_minus hc),
      if_neg (isRadixDigit_ne_point hc), if_pos hc, lneAux]
    have hA : ((tis.isNone && (Option.some pt).isNone) && decide (c ≠ '0')) = false := by
      simp
    have hB : ((Option.some e).isSome && decide (c ≠ '0')) = decide (c ≠ '0') := by
      simp
    rw [hA, if_neg (show ¬(false = true) by simp), hB]
    by_cases hc0 : c = '0'
    · rw [show decide (c ≠ '0') = false by simp [hc0],
        if_neg (show ¬(false = true) by simp),
        ih (index + 1) pt e sign tis hrest,
        show (if c ≠ '0' then index + 1 else e) = e by simp [hc0]]
    · rw [show decide (c ≠ '0') = true by simp [hc0], if_pos rfl,
        ih (index + 1) pt (index + 1) sign tis hrest,
        show (if c ≠ '0' then index + 1 else e) = index + 1 by simp [hc0]]

theorem parse_bounds_zero_point {ds : List Char}
    (hdig : ∀ c ∈ ds, isRadixDigit 10 c = true) :
    parse_bounds ('0' :: '.' :: ds) false 10 = .ok ⟨false, [], ds.take (trimLen ds)⟩ := by
  have h2 : pbGo 10 false ('0' :: '.' :: ds) 0 ⟨none, none, none, none, false⟩ =
      pbGo 10 false ds 2 ⟨none, none, some 1, some 2, true⟩ := rfl
  rw [parse_bounds, h2, pbGo_digits ds 2 1 2 none none hdig, lneAux_eq]
  by_cases h0 : trimLen ds = 0
  · rw [if_pos h0, h0]
    simp
  · rw [if_neg h0]
    simp only [Bool.not_true, Bool.false_eq_true, if_false, Option.getD_none]
    simp [ParseSpans.mk.injEq]

theorem get_int8_empty (radix : Nat) (wf : Bool) :
    get_int8 [] radix 0 wf = if wf then none else some 0 := by
  cases wf <;> rfl

theorem get_int16_empty (radix : Nat) (wf : Bool) :
    get_int16 [] radix 0 wf = if wf then none else some 0 := by
  cases wf <;> rfl

theorem dec3_full (v : Nat) (hv : v < 1000) :
    dec3_to_bin8 v 8 =
      if roundHalfUp (v * 2 ^ 8) (10 ^ 3) < 2 ^ 8
      then some (roundHalfUp (v * 2 ^ 8) (10 ^ 3)) else none := by
  have hlt : v * 64 < 65536 := by omega
  have hsh : ((v <<< (8 - 3 + 1)) % 2 ^ 16) >>> (8 - 8) = v * 64 := by
    rw [Nat.shiftLeft_eq, Nat.sub_self, Nat.shiftRight_zero]
    norm_num
    omega
  have hr : roundHalfUp (v * 2 ^ 8) (10 ^ 3) = (v * 64 + 125) / 250 := by
    rw [roundHalfUp]
    have hnum : 2 * (v * 2 ^ 8) + 10 ^ 3 = 8 * (v * 64 + 125) := by ring
    rw [hnum, show 2 * 10 ^ 3 = 8 * 250 from by norm_num,
      Nat.mul_div_mul_left _ _ (show 0 < 8 by norm_num)]
  rw [dec3_to_bin8, hsh, hr, Nat.shiftRight_eq_div_pow]
  norm_num
  have k1 : (250 ≤ (v * 64 + 125) / 256) ↔ (64000 ≤ v * 64 + 125) := by
    rw [Nat.le_div_iff_mul_le (show 0 < 256 by norm_num)]
  have k2 : ((v * 64 + 125) / 250 < 256) ↔ (v * 64 + 125 < 64000) := by
    rw [Nat.div_lt_iff_lt_mul (show 0 < 250 by norm_num)]
  by_cases hg : 64000 ≤ v * 64 + 125
  · rw [if_pos (k1.mpr hg), if_neg (show ¬((v * 64 + 125) / 250 < 256) from
      fun hh => absurd (k2.mp hh) (by omega))]
  · rw [if_neg (fun hh => hg (k1.mp hh)), if_pos (k2.mpr (by omega)),
      Nat.mod_eq_of_lt (k2.mpr (by omega))]

theorem dec6_full (v : Nat) (hv : v < 10 ^ 6) :
    dec6_to_bin16 v 16 =
      if roundHalfUp (v * 2 ^ 16) (10 ^ 6) < 2 ^ 16
      then some (roundHalfUp (v * 2 ^ 16) (10 ^ 6)) else none := by
  have hv' : v < 1000000 := by
    norm_num at hv
    exact hv
  have hlt : v * 2048 < 4294967296 := by omega
  have hsh : ((v <<< (16 - 6 + 1)) % 2 ^ 32) >>> (16 - 16) = v * 2048 := by
    rw [Nat.shiftLeft_eq, Nat.sub_self, Nat.shiftRight_zero]
    norm_num
    omega
  have hr : roundHalfUp (v * 2 ^ 16) (10 ^ 6) = (v * 2048 + 15625) / 31250 := by
    rw [roundHalfUp]
    have hnum : 2 * (v * 2 ^ 16) + 10 ^ 6 = 64 * (v * 2048 + 15625) := by ring
    rw [hnum, show 2 * 10 ^ 6 = 64 * 31250 from by norm_num,
      Nat.mul_div_mul_left _ _ (show 0 < 64 by norm_num)]
  rw [dec6_to_bin16, hsh, hr, Nat.shiftRight_eq_div_pow]
  norm_num
  have k1 : (31250 ≤ (v * 2048 + 15625) / 65536) ↔
      (2048000000 ≤ v * 2048 + 15625) := by
    rw [Nat.le_div_iff_mul_le (show 0 < 65536 by norm_num)]
  have k2 : ((v * 2048 + 15625) / 31250 < 65536) ↔
      (v * 2048 + 15625 < 2048000000) := by
    rw [Nat.div_lt_iff_lt_mul (show 0 < 31250 by norm_num)]
  by_cases hg : 2048000000 ≤ v * 2048 + 15625
  · rw [if_pos (k1.mpr hg), if_neg (show ¬((v * 2048 + 15625) / 31250 < 65536) from
      fun hh => absurd (k2.mp hh) (by omega))]
  · rw [if_neg (fun hh => hg (k1.mp hh)), if_pos (k2.mpr (by omega)),
      Nat.mod_eq_of_lt (k2.mpr (by omega))]

theorem get_frac8_of_trim {ds : List Char} {v : Nat} (hlen : ds.length = 3)
    (hval : val10 ds = v) :
    get_frac8 (ds.take (trimLen ds)) 10 8 = dec3_to_bin8 v 8 := by
  have htl : trimLen ds ≤ ds.length := trimLen_le ds
  have hsplit := take_trimLen_append ds
  have hv2 : val10 ds = val10 (ds.take (trimLen ds)) * 10 ^ (ds.length - trimLen ds) := by
    conv_lhs => rw [hsplit]
    rw [val10_append, val10_replicate_zero, List.length_replicate]
    omega
  have hlent : (ds.take (trimLen ds)).length = trimLen ds := by
    rw [List.length_take]
    omega
  by_cases hnil : ds.take (trimLen ds) = []
  · rw [hnil]
    have hv0 : v = 0 := by
      rw [← hval, hv2, hnil]
      simp [val10]
    subst hv0
    decide
  · have hie : (ds.take (trimLen ds)).isEmpty = false := by
      cases h' : ds.take (trimLen ds) with
      | nil => exact absurd h' hnil
      | cons a l => rfl
    rw [get_frac8, gfBody, hie]
    rw [if_neg (show ¬(false = true) from Bool.false_ne_true)]
    rw [if_neg (show (10 : Nat) ≠ 2 by omega), if_neg (show (10 : Nat) ≠ 8 by omega),
      if_neg (show (10 : Nat) ≠ 16 by omega), if_pos rfl]
    rw [get_frac8_dec]
    have hm : min (ds.take (trimLen ds)).length 3 = (ds.take (trimLen ds)).length := by
      omega
    rw [hm, List.take_length]
    have hvv : val10 (ds.take (trimLen ds)) * 10 ^ (3 - (ds.take (trimLen ds)).length) = v := by
      rw [hlent]
      rw [← hval, hv2]
      congr 2
      omega
    rw [hvv]

theorem get_frac16_of_trim {ds : List Char} {v : Nat} (hlen : ds.length = 6)
    (hval : val10 ds = v) :
    get_frac16 (ds.take (trimLen ds)) 10 16 = dec6_to_bin16 v 16 := by
  have htl : trimLen ds ≤ ds.length := trimLen_le ds
  have hsplit := take_trimLen_append ds
  have hv2 : val10 ds = val10 (ds.take (trimLen ds)) * 10 ^ (ds.length - trimLen ds) := by
    conv_lhs => rw [hsplit]
    rw [val10_append, val10_replicate_zero, List.length_replicate]
    omega
  have hlent : (ds.take (trimLen ds)).length = trimLen ds := by
    rw [List.length_take]
    omega
  by_cases hnil : ds.take (trimLen ds) = []
  · rw [hnil]
    have hv0 : v = 0 := by
      rw [← hval, hv2, hnil]
      simp [val10]
    subst hv0
    decide
  · have hie : (ds.take (trimLen ds)).isEmpty = false := by
      cases h' : ds.take (trimLen ds) with
      | nil => exact absurd h' hnil
      | cons a l => rfl
    rw [get_frac16]
    rw [if_neg (show ¬(16 ≤ 8) by omega)]
    rw [gfBody, hie]
    rw [if_neg (show ¬(false = true) from Bool.false_ne_true)]
    rw [if_neg (show (10 : Nat) ≠ 2 by omega), if_neg (show (10 : Nat) ≠ 8 by omega),
      if_neg (show (10 : Nat) ≠ 16 by omega), if_pos rfl]
    rw [get_frac16_dec]
    have hm : min (ds.take (trimLen ds)).length 6 = (ds.take (trimLen ds)).length := by
      omega
    rw [hm, List.take_length]
    have hvv : val10 (ds.take (trimLen ds)) * 10 ^ (6 - (ds.take (trimLen ds)).length) = v := by
      rw [hlent]
      rw [← hval, hv2]
      congr 2
      omega
    rw [hvv]

theorem from_str_u8_zero_point {ds : List Char} {v : Nat} (hv : v < 1000)
    (hlen : ds.length = 3) (hval : val10 ds = v)
    (hdig : ∀ c ∈ ds, isRadixDigit 10 c = true) :
    from_str_u8 ('0' :: '.' :: ds) 10 0 8 =
      if roundHalfUp (v * 2 ^ 8) (10 ^ 3) < 2 ^ 8
      then .ok (roundHalfUp (v * 2 ^ 8) (10 ^ 3)) else .err .Overflow := by
  rw [from_str_u8, parse_bounds_zero_point hdig]
  have hfr : get_frac8 (ds.take (trimLen ds)) 10 8 = dec3_to_bin8 v 8 :=
    get_frac8_of_trim hlen hval
  simp only [hfr, dec3_full v hv]
  by_cases hR : roundHalfUp (v * 2 ^ 8) (10 ^ 3) < 2 ^ 8
  · rw [if_pos hR, if_pos hR]
    simp [get_int8_empty]
  · rw [if_neg hR, if_neg hR]
    simp [get_int8_empty]

theorem from_str_u16_ok_of {s : List Char} {radix i f : Nat} {p : ParseSpans}
    {x iv : Nat} (hp : parse_bounds s false radix = .ok p)
    (hf : get_frac16 p.frac radix f = some x)
    (hi : get_int16 p.int radix i false = some iv) :
    from_str_u16 s radix i f = .ok (iv ||| x) := by
  rw [from_str_u16, hp]
  simp only [hf, hi]

theorem from_str_u16_overflow_of {s : List Char} {radix i f : Nat} {p : ParseSpans}
    (hp : parse_bounds s false radix = .ok p)
    (hf : get_frac16 p.frac radix f = none)
    (hi : get_int16 p.int radix i true = none) :
    from_str_u16 s radix i f = .err .Overflow := by
  rw [from_str_u16, hp]
  simp only [hf, hi]

theorem from_str_u16_zero_point {ds : List Char} {v : Nat} (hv : v < 10 ^ 6)
    (hlen : ds.length = 6) (hval : val10 ds = v)
    (hdig : ∀ c ∈ ds, isRadixDigit 10 c = true) :
    from_str_u16 ('0' :: '.' :: ds) 10 0 16 =
      if roundHalfUp (v * 2 ^ 16) (10 ^ 6) < 2 ^ 16
      then .ok (roundHalfUp (v * 2 ^ 16) (10 ^ 6)) else .err .Overflow := by
  have hfr : get_frac16 (ds.take (trimLen ds)) 10 16 = dec6_to_bin16 v 16 :=
    get_frac16_of_trim hlen hval
  rw [dec6_full v hv] at hfr
  by_cases hR : roundHalfUp (v * 2 ^ 16) (10 ^ 6) < 2 ^ 16
  · rw [if_pos hR] at hfr
    rw [if_pos hR,
      from_str_u16_ok_of (parse_bounds_zero_point hdig) hfr
        (show get_int16 ([] : List Char) 10 0 false = some 0 from rfl),
      Nat.zero_or]
  · rw [if_neg hR] at hfr
    rw [if_neg hR,
      from_str_u16_overflow_of (parse_bounds_zero_point hdig) hfr
        (show get_int16 ([] : List Char) 10 0 true = none from rfl)]

/-- C1: for every 3-digit decimal numeral `v`, parsing `"0." ++ v` in radix 10
on the unsigned 0-integer-bit 8-fraction-bit layout yields exactly the half-up
rounding `round(v · 2^8 / 10^3)` computed in pure integer arithmetic (and
`Overflow` in the single case `v = 999` where that rounding reaches `2^8`);
likewise every 6-digit decimal fraction parsed on the 16-fraction-bit unsigned
layout yields `round(v · 2^16 / 10^6)`. -/
theorem dec_brute_force_rounding :
    (∀ v < 1000,
      from_str_u8 ('0' :: '.' :: padDigits 3 v) 10 0 8 =
        if roundHalfUp (v * 2 ^ 8) (10 ^ 3) < 2 ^ 8
        then .ok (roundHalfUp (v * 2 ^ 8) (10 ^ 3)) else .err .Overflow) ∧
    (∀ v < 10 ^ 6,
      from_str_u16 ('0' :: '.' :: padDigits 6 v) 10 0 16 =
        if roundHalfUp (v * 2 ^ 16) (10 ^ 6) < 2 ^ 16
        then .ok (roundHalfUp (v * 2 ^ 16) (10 ^ 6)) else .err .Overflow) := by
  constructor
  · intro v hv
    have hval : val10 (padDigits 3 v) = v := by
      rw [val10_padDigits]
      exact Nat.mod_eq_of_lt (by norm_num; omega)
    exact from_str_u8_zero_point hv (padDigits_length 3 v) hval
      (padDigits_digits 3 v)
  · intro v hv
    have hval : val10 (padDigits 6 v) = v := by
      rw [val10_padDigits]
      exact Nat.mod_eq_of_lt hv
    exact from_str_u16_zero_point hv (padDigits_length 6 v) hval
      (padDigits_digits 6 v)

/-! ## Witnesses -/

theorem dec_brute_force_rounding_witness :
    from_str_u8 ('0' :: '.' :: padDigits 3 499) 10 0 8 = .ok 128 :=
  (dec_brute_force_rounding.1 499 (by decide)).trans (by decide)

theorem dec_truncation_amended_witness :
    get_frac8_dec ("123".toList ++ "45".toList) 8 = get_frac8_dec "123".toList 8 :=
  dec_truncation_amended.1 "123".toList "45".toList 8 (by decide)

theorem signed_range_asymmetry_witness :
    from_str_i8 "0.498".toList 10 0 8 = .ok 0x7F :=
  (signed_range_asymmetry.1 "0.498".toList 10 0 8 ⟨false, [], "498".toList⟩ 127
    (by decide) (by decide)).trans (by decide)

theorem carry_to_whole_u8_witness :
    from_str_u8 "0.999".toList 10 0 8 =
      match get_int8 [] 10 0 true with
      | some v => .ok (v ||| 0)
      | none => .err .Overflow :=
  carry_to_whole_u8.1 "0.999".toList 10 0 8 ⟨false, [], "999".toList⟩
    (by decide) (by decide)

theorem pow2_frac_cutoff_rounding_witness :
    bin_str_frac_to_bin 8 (['1', '1'] ++ '1' :: ['0', '1']) 2 =
      bin_str_frac_to_bin 8 (['1', '1'] ++ ['1']) 2 :=
  pow2_frac_cutoff_rounding.1 8 2 ['1', '1'] '1' ['0', '1'] (by decide)

theorem lexical_errors_first_witness :
    from_str_u8 "1.2.3".toList 10 0 8 = .err .TooManyPoints :=
  lexical_errors_first.2.1 "1.2.3".toList 10 0 8 .TooManyPoints (by decide)

theorem plus_sign_always_legal_witness :
    parse_bounds ('1' :: '-' :: "2".toList) true 10 = .err .InvalidDigit :=
  plus_sign_always_legal.2.2.2.2.2.2.2.2.2.2.1 "2".toList 10 true '1' (by decide)

theorem disjoint_int_frac_fields_witness :
    (8 : Nat) < 2 ^ 4 ∧ (16 : Nat) % 2 ^ 4 = 0 ∧ (16 : Nat) ||| 8 = 16 + 8 :=
  disjoint_int_frac_fields.1 ['1'] ['5'] 10 4 4 false 16 8 (by decide) (by decide)
    (by decide) (by decide)

theorem minus_zero_ok_signed_witness :
    from_str_i8 "-0".toList 10 4 4 = .ok 0 ∧
    from_str_u8 "-0".toList 10 4 4 = .err .InvalidDigit :=
  minus_zero_ok_signed.1 10 (Or.inr (Or.inr (Or.inl rfl))) 4 4

end SubstrateFixed
